import Mathlib

/-!
Verification of the graph algorithm library in include/graph/Algorithms.hpp.

The algorithms are generic over a graph backend (boost adjacency lists or the
repository's custom adjacency structure); the backend itself is not part of the
analysed source, so the storage model below follows the capability contract of
the specification (dense zero-based vertex indexing, per-vertex adjacency lists
stored symmetrically, opaque vertex / edge / graph properties).  The algorithm
bodies (subgraph, filterComponents, largestComponentIndices, largestComponent,
get_edges, is_adjacent, randomizeEndpoints) are translated directly from the
source header.
-/

/-- Modelled from the spec: the graph storage backend (graph/Graph.hpp and the
boost adjacency list) is not under src/.  A graph is a dense vector of vertex
properties, a dense vector of adjacency lists whose entries carry the incident
edge's property, and one graph-level property.  Undirected edges appear
symmetrically in both endpoints' adjacency lists. -/
structure Graph (α β γ : Type) where
  vprops : List α
  adjs : List (List (Nat × β))
  gprop : γ
deriving DecidableEq, Repr

/-- Number of vertices: the dense upper bound on valid vertex indices. -/
def Graph.n (g : Graph α β γ) : Nat := g.adjs.length

/-- Adjacency list of a vertex (empty for out-of-range indices). -/
def Graph.adj (g : Graph α β γ) (u : Nat) : List (Nat × β) := g.adjs.getD u []

/-- Neighbor indices of a vertex, with multiplicity. -/
def Graph.nbrs (g : Graph α β γ) (u : Nat) : List Nat := (g.adj u).map Prod.fst

/-- Degree of a vertex: the number of incident edge ends stored at it. -/
def Graph.degree (g : Graph α β γ) (u : Nat) : Nat := (g.adj u).length

/-- Multiplicity of the undirected edge between u and v as seen from u. -/
def Graph.emult (g : Graph α β γ) (u v : Nat) : Nat := (g.nbrs u).count v

/-- Well-formedness of the backend storage: the vertex property vector has one
entry per vertex, adjacency entries point inside the vertex range, and every
edge is stored symmetrically (same multiplicity and edge property on both
sides). -/
def Graph.WF [DecidableEq β] (g : Graph α β γ) : Prop :=
  g.vprops.length = g.adjs.length ∧
  (∀ u < g.n, ∀ e ∈ g.adj u, e.1 < g.n) ∧
  (∀ u < g.n, ∀ e ∈ g.adj u, (g.adj u).count e = (g.adj e.1).count (u, e.2))

/-- Loop-freeness: no vertex is its own neighbor. -/
def Graph.NoLoops (g : Graph α β γ) : Prop := ∀ u < g.n, u ∉ g.nbrs u

/-- Simplicity: no self-loops and no parallel edges. -/
def Graph.Simple (g : Graph α β γ) : Prop :=
  (∀ u < g.n, u ∉ g.nbrs u) ∧ (∀ u < g.n, (g.nbrs u).Nodup)

/-- One vertex u is adjacent to another vertex v. -/
def Graph.Adjacent (g : Graph α β γ) (u v : Nat) : Prop := v ∈ g.nbrs u

/-- A path in the undirected graph connects u to v. -/
def Graph.Reach (g : Graph α β γ) : Nat → Nat → Prop :=
  Relation.ReflTransGen g.Adjacent

instance : DecidablePred fun g : Graph α β γ => g.NoLoops := fun g =>
  decidable_of_iff (∀ u < g.n, u ∉ g.nbrs u) Iff.rfl

instance (g : Graph α β γ) (u v : Nat) : Decidable (g.Adjacent u v) :=
  decidable_of_iff (v ∈ g.nbrs u) Iff.rfl

instance [DecidableEq β] : DecidablePred fun g : Graph α β γ => g.Simple := fun g =>
  decidable_of_iff ((∀ u < g.n, u ∉ g.nbrs u) ∧ (∀ u < g.n, (g.nbrs u).Nodup)) Iff.rfl

instance [DecidableEq β] : DecidablePred fun g : Graph α β γ => g.WF := fun g =>
  decidable_of_iff (g.vprops.length = g.adjs.length ∧
    (∀ u < g.n, ∀ e ∈ g.adj u, e.1 < g.n) ∧
    (∀ u < g.n, ∀ e ∈ g.adj u, (g.adj u).count e = (g.adj e.1).count (u, e.2)))
    Iff.rfl

theorem Graph.adj_eq_nil (g : Graph α β γ) (u : Nat) (hu : g.n ≤ u) : g.adj u = [] :=
  List.getD_eq_default _ _ hu

theorem Graph.WF.adj_lt [DecidableEq β] {g : Graph α β γ} (hg : g.WF) :
    ∀ u, ∀ e ∈ g.adj u, e.1 < g.n := by
  intro u e he
  by_cases hu : u < g.n
  · exact hg.2.1 u hu e he
  · rw [g.adj_eq_nil u (Nat.le_of_not_lt hu)] at he
    cases he

/-- Modelled from the spec: boost::edges / the custom backend's edge
enumeration is not under src/.  Each undirected edge is produced exactly once
in canonical form by scanning every vertex's adjacency and keeping only the
pairs where the current vertex is the smaller endpoint (canonical rule u ≤ v),
together with the edge's property. -/
def Graph.edgesP (g : Graph α β γ) : List (Nat × Nat × β) :=
  ((List.range g.n).map fun u =>
    ((g.adj u).filter fun e => decide (u ≤ e.1)).map fun e => (u, e.1, e.2)).flatten

/-- Translation of get_edges: collect the backend's edge enumeration as a list
of vertex pairs. -/
def get_edges (g : Graph α β γ) : List (Nat × Nat) :=
  g.edgesP.map fun e => (e.1, e.2.1)

/-- Translation of is_adjacent: scan the out-edges of u for target v. -/
def is_adjacent (g : Graph α β γ) (u v : Nat) : Bool :=
  (g.adj u).any fun e => decide (e.1 = v)

/-!
Component finder.  Modelled from the spec: connectedComponents delegates to
boost::connected_components (and the repository's second backend uses its own
DFS); neither implementation is under src/.  The model below is the
explicit-stack depth-first search of spec section 4.2: scan for the first
unvisited vertex in ascending order, run a stack-based DFS that pushes
neighbors without a seen-check at push time, and issue component ids in
discovery order 0, 1, 2, ...
-/


def dfs (n : Nat) (adj : Nat → List Nat) (stack : List Nat) (vis : Finset Nat)
    (comp : Nat → Nat) (c : Nat) : Finset Nat × (Nat → Nat) :=
  match stack with
  | [] => (vis, comp)
  | u :: rest =>
    if u ∈ vis then dfs n adj rest vis comp c
    else if u < n then
      dfs n adj (adj u ++ rest) (insert u vis) (Function.update comp u c) c
    else dfs n adj rest vis comp c
termination_by ((Finset.range n \ vis).card, stack.length)
decreasing_by
  · exact Prod.Lex.right _ (Nat.lt_succ_self _)
  · apply Prod.Lex.left
    rw [Finset.sdiff_insert]
    apply Finset.card_lt_card
    apply Finset.erase_ssubset
    simp only [Finset.mem_sdiff, Finset.mem_range]
    exact ⟨by assumption, by assumption⟩
  · exact Prod.Lex.right _ (Nat.lt_succ_self _)

def adjRel (adj : Nat → List Nat) (a b : Nat) : Prop := b ∈ adj a

def adjReach (adj : Nat → List Nat) : Nat → Nat → Prop :=
  Relation.ReflTransGen (adjRel adj)

theorem dfs_vis_subset (n : Nat) (adj : Nat → List Nat) (stack : List Nat) (vis : Finset Nat)
    (comp : Nat → Nat) (c : Nat) : vis ⊆ (dfs n adj stack vis comp c).1 := by
  induction stack, vis, comp, c using dfs.induct n adj with
  | case1 vis comp c => rw [dfs]
  | case2 vis comp c u rest hmem ih => rw [dfs]; simp only [if_pos hmem]; exact ih
  | case3 vis comp c u rest hmem hlt ih =>
      rw [dfs]; simp only [if_neg hmem, if_pos hlt]
      exact fun x hx => ih (Finset.mem_insert_of_mem hx)
  | case4 vis comp c u rest hmem hlt ih => rw [dfs]; simp only [if_neg hmem, if_neg hlt]; exact ih

theorem dfs_stack_mem (n : Nat) (adj : Nat → List Nat) (stack : List Nat) (vis : Finset Nat)
    (comp : Nat → Nat) (c : Nat) :
    ∀ s ∈ stack, s < n → s ∈ (dfs n adj stack vis comp c).1 := by
  induction stack, vis, comp, c using dfs.induct n adj with
  | case1 vis comp c => intro s hs; cases hs
  | case2 vis comp c u rest hmem ih =>
      intro s hs hsn
      rw [dfs]; simp only [if_pos hmem]
      rcases List.mem_cons.mp hs with h | h
      · subst h; exact dfs_vis_subset n adj rest vis comp c hmem
      · exact ih s h hsn
  | case3 vis comp c u rest hmem hlt ih =>
      intro s hs hsn
      rw [dfs]; simp only [if_neg hmem, if_pos hlt]
      rcases List.mem_cons.mp hs with h | h
      · subst h
        exact dfs_vis_subset n adj _ _ _ _ (Finset.mem_insert_self s vis)
      · exact ih s (List.mem_append_right _ h) hsn
  | case4 vis comp c u rest hmem hlt ih =>
      intro s hs hsn
      rw [dfs]; simp only [if_neg hmem, if_neg hlt]
      rcases List.mem_cons.mp hs with h | h
      · subst h; exact absurd hsn hlt
      · exact ih s h hsn

theorem dfs_comp_of_mem (n : Nat) (adj : Nat → List Nat) (stack : List Nat) (vis : Finset Nat)
    (comp : Nat → Nat) (c : Nat) :
    ∀ u ∈ vis, (dfs n adj stack vis comp c).2 u = comp u := by
  induction stack, vis, comp, c using dfs.induct n adj with
  | case1 vis comp c => intro u _; rw [dfs]
  | case2 vis comp c u rest hmem ih => intro w hw; rw [dfs]; simp only [if_pos hmem]; exact ih w hw
  | case3 vis comp c u rest hmem hlt ih =>
      intro w hw
      rw [dfs]; simp only [if_neg hmem, if_pos hlt]
      have hne : w ≠ u := fun h => hmem (h ▸ hw)
      rw [ih w (Finset.mem_insert_of_mem hw), Function.update_noteq hne]
  | case4 vis comp c u rest hmem hlt ih => intro w hw; rw [dfs]; simp only [if_neg hmem, if_neg hlt]; exact ih w hw

theorem dfs_comp_of_not_mem (n : Nat) (adj : Nat → List Nat) (stack : List Nat) (vis : Finset Nat)
    (comp : Nat → Nat) (c : Nat) :
    ∀ u, u ∉ (dfs n adj stack vis comp c).1 → (dfs n adj stack vis comp c).2 u = comp u := by
  induction stack, vis, comp, c using dfs.induct n adj with
  | case1 vis comp c => intro u _; rw [dfs]
  | case2 vis comp c u rest hmem ih => intro w hw; rw [dfs] at hw ⊢; simp only [if_pos hmem] at hw ⊢; exact ih w hw
  | case3 vis comp c u rest hmem hlt ih =>
      intro w hw
      rw [dfs] at hw ⊢; simp only [if_neg hmem, if_pos hlt] at hw ⊢
      have hwu : w ≠ u := by
        intro h
        subst h
        exact hw (dfs_vis_subset n adj _ _ _ _ (Finset.mem_insert_self w vis))
      rw [ih w hw, Function.update_noteq hwu]
  | case4 vis comp c u rest hmem hlt ih => intro w hw; rw [dfs] at hw ⊢; simp only [if_neg hmem, if_neg hlt] at hw ⊢; exact ih w hw

theorem dfs_new_spec (n : Nat) (adj : Nat → List Nat) (stack : List Nat) (vis : Finset Nat)
    (comp : Nat → Nat) (c : Nat) :
    ∀ u ∈ (dfs n adj stack vis comp c).1, u ∉ vis →
      u < n ∧ (dfs n adj stack vis comp c).2 u = c ∧ ∃ s ∈ stack, adjReach adj s u := by
  induction stack, vis, comp, c using dfs.induct n adj with
  | case1 vis comp c => intro u hu hnu; rw [dfs] at hu; exact absurd hu hnu
  | case2 vis comp c u rest hmem ih =>
      intro w hw hnw
      rw [dfs] at hw ⊢; simp only [if_pos hmem] at hw ⊢
      obtain ⟨h1, h2, s, hs, hreach⟩ := ih w hw hnw
      exact ⟨h1, h2, s, List.mem_cons_of_mem u hs, hreach⟩
  | case3 vis comp c u rest hmem hlt ih =>
      intro w hw hnw
      rw [dfs] at hw ⊢; simp only [if_neg hmem, if_pos hlt] at hw ⊢
      by_cases hwu : w = u
      · subst hwu
        refine ⟨hlt, ?_, w, List.mem_cons_self w rest, Relation.ReflTransGen.refl⟩
        rw [dfs_comp_of_mem n adj _ _ _ _ w (Finset.mem_insert_self w vis)]
        simp [Function.update]
      · have hw2 : w ∉ insert u vis := by
          simp only [Finset.mem_insert]
          exact fun h => h.elim hwu hnw
        obtain ⟨h1, h2, s, hs, hreach⟩ := ih w hw hw2
        rcases List.mem_append.mp hs with h | h
        · refine ⟨h1, h2, u, List.mem_cons_self u rest, ?_⟩
          exact Relation.ReflTransGen.trans (Relation.ReflTransGen.single h) hreach
        · exact ⟨h1, h2, s, List.mem_cons_of_mem u h, hreach⟩
  | case4 vis comp c u rest hmem hlt ih =>
      intro w hw hnw
      rw [dfs] at hw ⊢; simp only [if_neg hmem, if_neg hlt] at hw ⊢
      obtain ⟨h1, h2, s, hs, hreach⟩ := ih w hw hnw
      exact ⟨h1, h2, s, List.mem_cons_of_mem u hs, hreach⟩

theorem dfs_closure (n : Nat) (adj : Nat → List Nat)
    (Hrange : ∀ w, ∀ x ∈ adj w, x < n) (stack : List Nat) (vis : Finset Nat)
    (comp : Nat → Nat) (c : Nat)
    (hcl : ∀ w ∈ vis, ∀ x ∈ adj w, x ∈ vis ∨ x ∈ stack) :
    ∀ w ∈ (dfs n adj stack vis comp c).1, ∀ x ∈ adj w, x ∈ (dfs n adj stack vis comp c).1 := by
  induction stack, vis, comp, c using dfs.induct n adj with
  | case1 vis comp c =>
      intro w hw x hx
      rw [dfs] at hw ⊢
      rcases hcl w hw x hx with h | h
      · exact h
      · cases h
  | case2 vis comp c u rest hmem ih =>
      rw [dfs]; simp only [if_pos hmem]
      apply ih
      intro w hw x hx
      rcases hcl w hw x hx with h | h
      · exact Or.inl h
      · rcases List.mem_cons.mp h with h2 | h2
        · exact Or.inl (h2 ▸ hmem)
        · exact Or.inr h2
  | case3 vis comp c u rest hmem hlt ih =>
      rw [dfs]; simp only [if_neg hmem, if_pos hlt]
      apply ih
      intro w hw x hx
      rcases Finset.mem_insert.mp hw with h | h
      · subst h
        exact Or.inr (List.mem_append_left rest hx)
      · rcases hcl w h x hx with h2 | h2
        · exact Or.inl (Finset.mem_insert_of_mem h2)
        · rcases List.mem_cons.mp h2 with h3 | h3
          · exact Or.inl (h3 ▸ Finset.mem_insert_self u vis)
          · exact Or.inr (List.mem_append_right _ h3)
  | case4 vis comp c u rest hmem hlt ih =>
      rw [dfs]; simp only [if_neg hmem, if_neg hlt]
      apply ih
      intro w hw x hx
      rcases hcl w hw x hx with h | h
      · exact Or.inl h
      · rcases List.mem_cons.mp h with h2 | h2
        · exact absurd (h2 ▸ Hrange w x hx) (h2 ▸ hlt)
        · exact Or.inr h2

theorem adjReach_symm (adj : Nat → List Nat) (Hsym : ∀ a b, b ∈ adj a → a ∈ adj b)
    {u v : Nat} (h : adjReach adj u v) : adjReach adj v u := by
  induction h with
  | refl => exact Relation.ReflTransGen.refl
  | tail hab hbc ih =>
      exact Relation.ReflTransGen.trans (Relation.ReflTransGen.single (Hsym _ _ hbc)) ih

theorem adjReach_lt (adj : Nat → List Nat) (n : Nat) (Hrange : ∀ w, ∀ x ∈ adj w, x < n)
    {u v : Nat} (h : adjReach adj u v) (hu : u < n) : v < n := by
  induction h with
  | refl => exact hu
  | tail hab hbc ih => exact Hrange _ _ hbc

/-- Specification of one completed inner DFS run seeded at an unvisited vertex v:
the visited set grows by exactly the reachability class of v, the new vertices all
receive label c, and old labels are untouched. -/
theorem dfs_run_spec (n : Nat) (adj : Nat → List Nat)
    (Hrange : ∀ w, ∀ x ∈ adj w, x < n) (Hsym : ∀ a b, b ∈ adj a → a ∈ adj b)
    (vis : Finset Nat) (comp : Nat → Nat) (c : Nat) (v : Nat) (hvn : v < n) (hv : v ∉ vis)
    (hcl : ∀ w ∈ vis, ∀ x ∈ adj w, x ∈ vis) :
    (∀ u, u ∈ (dfs n adj [v] vis comp c).1 ↔ u ∈ vis ∨ adjReach adj v u) ∧
    (∀ u, u ∈ vis → (dfs n adj [v] vis comp c).2 u = comp u) ∧
    (∀ u, u ∉ vis → u ∈ (dfs n adj [v] vis comp c).1 → (dfs n adj [v] vis comp c).2 u = c) ∧
    (∀ u, u ∉ (dfs n adj [v] vis comp c).1 → (dfs n adj [v] vis comp c).2 u = comp u) := by
  have hclosed_reach : ∀ w x, adjReach adj w x → w ∈ vis → x ∈ vis := by
    intro w x hr
    induction hr with
    | refl => exact fun h => h
    | tail hab hbc ih => exact fun h => hcl _ (ih h) _ hbc
  have hdisj : ∀ u, adjReach adj v u → u ∉ vis := by
    intro u hreach hu
    exact hv (hclosed_reach u v (adjReach_symm adj Hsym hreach) hu)
  refine ⟨?_, fun u hu => dfs_comp_of_mem n adj _ _ _ _ u hu, ?_,
    fun u hu => dfs_comp_of_not_mem n adj _ _ _ _ u hu⟩
  · intro u
    constructor
    · intro hu
      by_cases hmem : u ∈ vis
      · exact Or.inl hmem
      · obtain ⟨_, _, s, hs, hreach⟩ := dfs_new_spec n adj _ _ _ _ u hu hmem
        rcases List.mem_cons.mp hs with h | h
        · exact Or.inr (h ▸ hreach)
        · cases h
    · intro hu
      rcases hu with h | h
      · exact dfs_vis_subset n adj _ _ _ _ h
      · have hclosed : ∀ w ∈ (dfs n adj [v] vis comp c).1, ∀ x ∈ adj w,
            x ∈ (dfs n adj [v] vis comp c).1 := by
          apply dfs_closure n adj Hrange
          intro w hw x hx
          exact Or.inl (hcl w hw x hx)
        induction h with
        | refl => exact dfs_stack_mem n adj _ _ _ _ v (List.mem_cons_self v []) hvn
        | tail hab hbc ih => exact hclosed _ ih _ hbc
  · intro u hu hmem
    obtain ⟨_, h2, _⟩ := dfs_new_spec n adj _ _ _ _ u hmem hu
    exact h2

def ccLoop (n : Nat) (adj : Nat → List Nat) (vis : Finset Nat) (comp : Nat → Nat) (c : Nat) :
    (Nat → Nat) × Nat :=
  match hfind : (List.range n).find? (fun u => decide (u ∉ vis)) with
  | none => (comp, c)
  | some v => ccLoop n adj (dfs n adj [v] vis comp c).1 (dfs n adj [v] vis comp c).2 (c + 1)
termination_by (Finset.range n \ vis).card
decreasing_by
  have hvr : v ∈ List.range n := List.mem_of_find?_eq_some hfind
  have hvv : v ∉ vis := by
    have := List.find?_some hfind
    simpa using this
  have hvn : v < n := List.mem_range.mp hvr
  have hsub : Finset.range n \ (dfs n adj [v] vis comp c).1 ⊆ Finset.range n \ vis := by
    intro x hx
    simp only [Finset.mem_sdiff] at hx ⊢
    exact ⟨hx.1, fun h => hx.2 (dfs_vis_subset n adj [v] vis comp c h)⟩
  apply Finset.card_lt_card
  rw [Finset.ssubset_iff_of_subset hsub]
  refine ⟨v, ?_, ?_⟩
  · simp only [Finset.mem_sdiff, Finset.mem_range]
    exact ⟨hvn, hvv⟩
  · simp only [Finset.mem_sdiff, Finset.mem_range, not_and, not_not]
    intro _
    exact dfs_stack_mem n adj [v] vis comp c v (List.mem_cons_self v []) hvn

theorem ccLoop_correct (n : Nat) (adj : Nat → List Nat)
    (Hrange : ∀ w, ∀ x ∈ adj w, x < n) (Hsym : ∀ a b, b ∈ adj a → a ∈ adj b)
    (vis : Finset Nat) (comp : Nat → Nat) (c : Nat)
    (GI1 : ∀ u ∈ vis, u < n)
    (GI2 : ∀ u ∈ vis, ∀ x ∈ adj u, x ∈ vis)
    (GI3 : ∀ u ∈ vis, comp u < c)
    (GI4 : ∀ u ∈ vis, ∀ w ∈ vis, (comp u = comp w ↔ adjReach adj u w))
    (GI5 : ∀ lbl, lbl < c → ∃ u ∈ vis, comp u = lbl) :
    (∀ u, u < n → ∀ w, w < n →
      ((ccLoop n adj vis comp c).1 u = (ccLoop n adj vis comp c).1 w ↔ adjReach adj u w)) ∧
    (∀ u, u < n → (ccLoop n adj vis comp c).1 u < (ccLoop n adj vis comp c).2) ∧
    (∀ lbl, lbl < (ccLoop n adj vis comp c).2 → ∃ u, u < n ∧ (ccLoop n adj vis comp c).1 u = lbl) := by
  induction vis, comp, c using ccLoop.induct n adj with
  | case1 vis comp c hfind =>
      rw [ccLoop, hfind]
      have hall : ∀ u, u < n → u ∈ vis := by
        intro u hu
        have := List.find?_eq_none.mp hfind u (List.mem_range.mpr hu)
        simpa using this
      exact ⟨fun u hu w hw => GI4 u (hall u hu) w (hall w hw),
        fun u hu => GI3 u (hall u hu),
        fun lbl hlbl => by
          obtain ⟨u, hu, hc⟩ := GI5 lbl hlbl
          exact ⟨u, GI1 u hu, hc⟩⟩
  | case2 vis comp c v hfind ih =>
      rw [ccLoop, hfind]
      have hvr : v ∈ List.range n := List.mem_of_find?_eq_some hfind
      have hvv : v ∉ vis := by
        have := List.find?_some hfind
        simpa using this
      have hvn : v < n := List.mem_range.mp hvr
      obtain ⟨hiff, hold, hnew, huntouched⟩ :=
        dfs_run_spec n adj Hrange Hsym vis comp c v hvn hvv GI2
      have hclosed_reach : ∀ w x, adjReach adj w x → w ∈ vis → x ∈ vis := by
        intro w x hr
        induction hr with
        | refl => exact fun h => h
        | tail hab hbc ihr => exact fun h => GI2 _ (ihr h) _ hbc
      have hdisj : ∀ u, adjReach adj v u → u ∉ vis := by
        intro u hreach hu
        exact hvv (hclosed_reach u v (adjReach_symm adj Hsym hreach) hu)
      apply ih
      · intro u hu
        rcases (hiff u).mp hu with h | h
        · exact GI1 u h
        · exact adjReach_lt adj n Hrange h hvn
      · intro u hu x hx
        rcases (hiff u).mp hu with h | h
        · exact (hiff x).mpr (Or.inl (GI2 u h x hx))
        · exact (hiff x).mpr (Or.inr (Relation.ReflTransGen.tail h hx))
      · intro u hu
        rcases (hiff u).mp hu with h | h
        · rw [hold u h]
          exact Nat.lt_succ_of_lt (GI3 u h)
        · rw [hnew u (hdisj u h) hu]
          exact Nat.lt_succ_self c
      · intro u hu w hw
        rcases (hiff u).mp hu with h1 | h1 <;> rcases (hiff w).mp hw with h2 | h2
        · rw [hold u h1, hold w h2]
          exact GI4 u h1 w h2
        · rw [hold u h1, hnew w (hdisj w h2) hw]
          constructor
          · intro heq
            exact absurd heq (Nat.ne_of_lt (GI3 u h1))
          · intro hreach
            exfalso
            apply hdisj u (Relation.ReflTransGen.trans h2 (adjReach_symm adj Hsym hreach)) h1
        · rw [hnew u (hdisj u h1) hu, hold w h2]
          constructor
          · intro heq
            exact absurd heq.symm (Nat.ne_of_lt (GI3 w h2))
          · intro hreach
            exfalso
            apply hdisj w (Relation.ReflTransGen.trans h1 hreach) h2
        · rw [hnew u (hdisj u h1) hu, hnew w (hdisj w h2) hw]
          constructor
          · intro _
            exact Relation.ReflTransGen.trans (adjReach_symm adj Hsym h1) h2
          · intro _
            rfl
      · intro lbl hlbl
        rcases Nat.lt_succ_iff_lt_or_eq.mp hlbl with h | h
        · obtain ⟨u, hu, hc⟩ := GI5 lbl h
          exact ⟨u, (hiff u).mpr (Or.inl hu), by rw [hold u hu]; exact hc⟩
        · subst h
          refine ⟨v, (hiff v).mpr (Or.inr Relation.ReflTransGen.refl), ?_⟩
          exact hnew v hvv ((hiff v).mpr (Or.inr Relation.ReflTransGen.refl))

/-- Component search over the graph's neighbor structure: all vertices start
unvisited, labels are issued from 0. -/
def findComponentsFun (g : Graph α β γ) : (Nat → Nat) × Nat :=
  ccLoop g.n g.nbrs ∅ (fun _ => 0) 0

/-- Translation of connectedComponents: fill a label vector of length
num_vertices(g) and return the number of components found. -/
def connectedComponents (g : Graph α β γ) : List Nat × Nat :=
  ((List.range g.n).map (findComponentsFun g).1, (findComponentsFun g).2)

theorem Graph.WF.nbrs_lt [DecidableEq β] {g : Graph α β γ} (hg : g.WF) :
    ∀ w, ∀ x ∈ g.nbrs w, x < g.n := by
  intro w x hx
  obtain ⟨e, he, hfst⟩ := List.mem_map.mp hx
  exact hfst ▸ hg.adj_lt w e he

theorem Graph.lt_of_adj_ne_nil (g : Graph α β γ) (u : Nat) (h : g.adj u ≠ []) : u < g.n := by
  by_contra hu
  exact h (g.adj_eq_nil u (Nat.le_of_not_lt hu))

theorem Graph.WF.nbrs_symm [DecidableEq β] {g : Graph α β γ} (hg : g.WF) :
    ∀ a b, b ∈ g.nbrs a → a ∈ g.nbrs b := by
  intro a b hb
  obtain ⟨e, he, hfst⟩ := List.mem_map.mp hb
  have ha : a < g.n := g.lt_of_adj_ne_nil a (List.ne_nil_of_mem he)
  have hcount : (g.adj a).count e = (g.adj e.1).count (a, e.2) := hg.2.2 a ha e he
  have hpos : 0 < (g.adj e.1).count (a, e.2) := by
    rw [← hcount]
    exact List.count_pos_iff.mpr he
  have hmem : (a, e.2) ∈ g.adj e.1 := List.count_pos_iff.mp hpos
  rw [← hfst]
  exact List.mem_map.mpr ⟨(a, e.2), hmem, rfl⟩

theorem Graph.reach_eq_adjReach (g : Graph α β γ) : g.Reach = adjReach g.nbrs := rfl

theorem getD_map_range (n u : Nat) (f : Nat → Nat) (hu : u < n) :
    ((List.range n).map f).getD u 0 = f u := by
  rw [List.getD_eq_getElem?_getD, List.getElem?_map, List.getElem?_range hu]
  rfl

theorem sum_countP_eq_length (k : Nat) (l : List Nat) (h : ∀ x ∈ l, x < k) :
    (∑ lbl in Finset.range k, l.countP (fun x => decide (x = lbl))) = l.length := by
  induction l with
  | nil => simp
  | cons a t ih =>
      have ha : a ∈ Finset.range k := Finset.mem_range.mpr (h a (List.mem_cons_self a t))
      have ht : ∀ x ∈ t, x < k := fun x hx => h x (List.mem_cons_of_mem a hx)
      simp only [List.countP_cons, List.length_cons]
      rw [Finset.sum_add_distrib, ih ht]
      congr 1
      have : ∀ lbl, (if decide (a = lbl) = true then 1 else 0) = if a = lbl then 1 else 0 := by
        intro lbl
        by_cases hal : a = lbl <;> simp [hal]
      rw [Finset.sum_congr rfl fun lbl _ => this lbl, Finset.sum_ite_eq (Finset.range k) a fun _ => 1,
        if_pos ha]

theorem findComponentsFun_correct [DecidableEq β] (g : Graph α β γ) (hg : g.WF) :
    (∀ u, u < g.n → ∀ v, v < g.n →
      ((findComponentsFun g).1 u = (findComponentsFun g).1 v ↔ g.Reach u v)) ∧
    (∀ u, u < g.n → (findComponentsFun g).1 u < (findComponentsFun g).2) ∧
    (∀ lbl, lbl < (findComponentsFun g).2 → ∃ u, u < g.n ∧ (findComponentsFun g).1 u = lbl) := by
  have h := ccLoop_correct g.n g.nbrs hg.nbrs_lt hg.nbrs_symm ∅ (fun _ => 0) 0
    (by intro u hu; cases hu) (by intro u hu; cases hu) (by intro u hu; cases hu)
    (by intro u hu; cases hu) (by intro lbl hl; cases hl)
  exact ⟨fun u hu v hv => h.1 u hu v hv, h.2.1, h.2.2⟩

/-- C1: connectedComponents assigns two vertices the same label iff a path in
the undirected graph connects them; the labels form the contiguous range
[0, k) where k is the returned number of components; and the per-label vertex
counts sum to the vertex count n. -/
theorem c1_connectedComponents_partition [DecidableEq β] (g : Graph α β γ) (hg : g.WF) :
    (∀ u, u < g.n → ∀ v, v < g.n →
      ((connectedComponents g).1.getD u 0 = (connectedComponents g).1.getD v 0 ↔ g.Reach u v)) ∧
    (∀ u, u < g.n → (connectedComponents g).1.getD u 0 < (connectedComponents g).2) ∧
    (∀ lbl, lbl < (connectedComponents g).2 →
      ∃ u, u < g.n ∧ (connectedComponents g).1.getD u 0 = lbl) ∧
    (∑ lbl in Finset.range (connectedComponents g).2,
      (connectedComponents g).1.countP (fun x => decide (x = lbl))) = g.n := by
  obtain ⟨hA, hB, hC⟩ := findComponentsFun_correct g hg
  have hget : ∀ u, u < g.n → (connectedComponents g).1.getD u 0 = (findComponentsFun g).1 u :=
    fun u hu => getD_map_range g.n u (findComponentsFun g).1 hu
  refine ⟨?_, ?_, ?_, ?_⟩
  · intro u hu v hv
    rw [hget u hu, hget v hv]
    exact hA u hu v hv
  · intro u hu
    rw [hget u hu]
    exact hB u hu
  · intro lbl hlbl
    obtain ⟨u, hu, hl⟩ := hC lbl hlbl
    exact ⟨u, hu, by rw [hget u hu]; exact hl⟩
  · have hlen : (connectedComponents g).1.length = g.n := by
      simp [connectedComponents]
    have hmem : ∀ x ∈ (connectedComponents g).1, x < (connectedComponents g).2 := by
      intro x hx
      obtain ⟨u, hu, hfu⟩ := List.mem_map.mp hx
      have hun : u < g.n := List.mem_range.mp hu
      exact hfu ▸ hB u hun
    rw [sum_countP_eq_length _ _ hmem, hlen]

/-- Witness for C1 at a concrete graph: two disjoint triangles on vertices
0..5, as in the spec's scenario. -/
def twoTriangles : Graph Unit Unit Unit :=
  { vprops := [(), (), (), (), (), ()],
    adjs := [[(1, ()), (2, ())], [(0, ()), (2, ())], [(0, ()), (1, ())],
             [(4, ()), (5, ())], [(3, ()), (5, ())], [(3, ()), (4, ())]],
    gprop := () }

theorem c1_connectedComponents_partition_witness :
    twoTriangles.WF ∧
    ((∀ u, u < twoTriangles.n → ∀ v, v < twoTriangles.n →
      ((connectedComponents twoTriangles).1.getD u 0 =
          (connectedComponents twoTriangles).1.getD v 0 ↔ twoTriangles.Reach u v)) ∧
    (∀ u, u < twoTriangles.n →
      (connectedComponents twoTriangles).1.getD u 0 < (connectedComponents twoTriangles).2) ∧
    (∀ lbl, lbl < (connectedComponents twoTriangles).2 →
      ∃ u, u < twoTriangles.n ∧ (connectedComponents twoTriangles).1.getD u 0 = lbl) ∧
    (∑ lbl in Finset.range (connectedComponents twoTriangles).2,
      (connectedComponents twoTriangles).1.countP (fun x => decide (x = lbl))) = twoTriangles.n) :=
  ⟨by decide, c1_connectedComponents_partition twoTriangles (by decide)⟩

/-!
Subgraph builder, translated from the source's subgraph function.
-/

/-- Modelled from the spec: the backend's add_edge inserts an undirected edge
by appending it to one endpoint's adjacency list. -/
def addHalf (adjs : List (List (Nat × β))) (u v : Nat) (p : β) : List (List (Nat × β)) :=
  adjs.set u (adjs.getD u [] ++ [(v, p)])

/-- Modelled from the spec: add_edge(u, v, p, g) stores the undirected edge
symmetrically at both endpoints. -/
def Graph.addEdge (g : Graph α β γ) (u v : Nat) (p : β) : Graph α β γ :=
  { g with adjs := addHalf (addHalf g.adjs u v p) v u p }

theorem getD_set_eq {δ : Type} (l : List δ) (d : δ) (i j : Nat) (a : δ) :
    (l.set i a).getD j d = if i = j ∧ i < l.length then a else l.getD j d := by
  rw [List.getD_eq_getElem?_getD, List.getElem?_set]
  split
  · rename_i h
    subst h
    by_cases hl : i < l.length
    · simp [hl]
    · simp [hl, List.getD_eq_getElem?_getD, List.getElem?_eq_none (Nat.le_of_not_lt hl)]
  · rename_i h
    simp [List.getD_eq_getElem?_getD, h, fun hh : i = j ∧ i < l.length => h hh.1]

theorem Graph.n_addEdge (g : Graph α β γ) (u v : Nat) (p : β) : (g.addEdge u v p).n = g.n := by
  simp [Graph.addEdge, addHalf, Graph.n]

theorem Graph.vprops_addEdge (g : Graph α β γ) (u v : Nat) (p : β) :
    (g.addEdge u v p).vprops = g.vprops := rfl

theorem Graph.gprop_addEdge (g : Graph α β γ) (u v : Nat) (p : β) :
    (g.addEdge u v p).gprop = g.gprop := rfl

theorem Graph.adj_addEdge (g : Graph α β γ) (u v : Nat) (p : β) (hu : u < g.n) (hv : v < g.n)
    (huv : u ≠ v) (w : Nat) :
    (g.addEdge u v p).adj w =
      if w = u then g.adj u ++ [(v, p)]
      else if w = v then g.adj v ++ [(u, p)]
      else g.adj w := by
  have hun : u < g.adjs.length := hu
  have hvn : v < g.adjs.length := hv
  have hlen : (addHalf g.adjs u v p).length = g.adjs.length := by simp [addHalf]
  have h1 : ∀ x, (addHalf g.adjs u v p).getD x [] =
      if x = u then g.adj u ++ [(v, p)] else g.adj x := by
    intro x
    rw [addHalf, getD_set_eq]
    by_cases hx : x = u
    · subst hx
      rw [if_pos ⟨rfl, hun⟩, if_pos rfl]
      rfl
    · rw [if_neg (fun h => hx h.1.symm), if_neg hx]
      rfl
  show (addHalf (addHalf g.adjs u v p) v u p).getD w [] = _
  rw [addHalf, getD_set_eq, hlen, h1, h1]
  by_cases hwv : w = v
  · subst hwv
    rw [if_pos ⟨rfl, hvn⟩, if_neg (Ne.symm huv), if_neg (fun h => huv h.symm), if_pos rfl]
  · rw [if_neg (fun h : v = w ∧ v < g.adjs.length => hwv h.1.symm), if_neg hwv]

/-- Translation of the reverse index map construction: successive assignments
map[indices[i]] = i for i ascending, later assignments overwriting earlier
ones. -/
def buildMap (indices : List Nat) : Nat → Option Nat :=
  (List.range indices.length).foldl
    (fun m i => fun u => if u = indices.getD i 0 then some i else m u)
    (fun _ => none)

theorem getD_nodup_inj (l : List Nat) (hnd : l.Nodup) (i j : Nat) (hi : i < l.length)
    (hj : j < l.length) (h : l.getD i 0 = l.getD j 0) : i = j := by
  have h1 : l.get ⟨i, hi⟩ = l.get ⟨j, hj⟩ := by
    rwa [List.getD_eq_getElem?_getD, List.getD_eq_getElem?_getD,
      List.getElem?_eq_getElem hi, List.getElem?_eq_getElem hj] at h
  have h2 := (List.Nodup.get_inj_iff hnd).mp h1
  simpa using congrArg Fin.val h2

theorem buildMapAux_eq_some_iff (indices : List Nat) (hnd : indices.Nodup) (k : Nat)
    (hk : k ≤ indices.length) (u i : Nat) :
    ((List.range k).foldl
      (fun m i => fun u => if u = indices.getD i 0 then some i else m u)
      (fun _ => none)) u = some i ↔ i < k ∧ indices.getD i 0 = u := by
  induction k with
  | zero => simp
  | succ k ih =>
      have hk2 : k ≤ indices.length := Nat.le_of_succ_le hk
      have hkl : k < indices.length := hk
      rw [List.range_succ, List.foldl_append, List.foldl_cons, List.foldl_nil]
      by_cases hu : u = indices.getD k 0
      · simp only [if_pos hu]
        constructor
        · intro h
          have : k = i := by
            have := Option.some.inj h
            exact this
          subst this
          exact ⟨Nat.lt_succ_self k, hu.symm⟩
        · intro ⟨hik, hgd⟩
          have : i = k := by
            rcases Nat.lt_succ_iff_lt_or_eq.mp hik with h | h
            · exact getD_nodup_inj indices hnd i k (Nat.lt_of_lt_of_le h hk2) hkl (hgd.trans hu)
            · exact h
          subst this
          rfl
      · simp only [if_neg hu]
        rw [ih hk2]
        constructor
        · intro ⟨hik, hgd⟩
          exact ⟨Nat.lt_succ_of_lt hik, hgd⟩
        · intro ⟨hik, hgd⟩
          rcases Nat.lt_succ_iff_lt_or_eq.mp hik with h | h
          · exact ⟨h, hgd⟩
          · subst h
            exact absurd hgd.symm hu

theorem buildMap_eq_some_iff (indices : List Nat) (hnd : indices.Nodup) (u i : Nat) :
    buildMap indices u = some i ↔ i < indices.length ∧ indices.getD i 0 = u :=
  buildMapAux_eq_some_iff indices hnd indices.length (Nat.le_refl _) u i

/-- One step of the subgraph builder's edge loop: look both endpoints up in the
reverse index map and add the relabeled edge (with the original edge property)
when both are kept. -/
def subgraphStep (m : Nat → Option Nat) (out : Graph α β γ) (e : Nat × Nat × β) :
    Graph α β γ :=
  match m e.1, m e.2.1 with
  | some i, some j => out.addEdge i j e.2.2
  | _, _ => out

theorem getD_replicate_nil (n i : Nat) (a : List (Nat × β)) :
    (List.replicate n a).getD i [] = if i < n then a else [] := by
  rw [List.getD_eq_getElem?_getD, List.getElem?_replicate]
  by_cases h : i < n
  · simp [h]
  · simp [h]

/-- The freshly allocated output graph of the subgraph builder before edges are
added: |indices| vertices, the graph-level property copied unchanged, and each
kept vertex's property copied to its new slot. -/
def subgraphBase [Inhabited α] (g : Graph α β γ) (indices : List Nat) : Graph α β γ :=
  { vprops := indices.map (fun idx => g.vprops.getD idx default),
    adjs := List.replicate indices.length [],
    gprop := g.gprop }

/-- Translation of subgraph: allocate a fresh graph on |indices| vertices, copy
the graph-level property, copy each kept vertex's property to its new slot,
then add every enumerated edge whose endpoints are both kept, relabeled
through the reverse index map, keeping its edge property. -/
def subgraph [Inhabited α] (g : Graph α β γ) (indices : List Nat) : Graph α β γ :=
  g.edgesP.foldl (subgraphStep (buildMap indices)) (subgraphBase g indices)

theorem subgraphBase_n [Inhabited α] (g : Graph α β γ) (indices : List Nat) :
    (subgraphBase g indices).n = indices.length := by
  simp [subgraphBase, Graph.n]

theorem subgraphBase_adj [Inhabited α] (g : Graph α β γ) (indices : List Nat) (w : Nat) :
    (subgraphBase g indices).adj w = [] := by
  rw [subgraphBase, Graph.adj]
  show (List.replicate indices.length []).getD w [] = []
  rw [getD_replicate_nil]
  by_cases h : w < indices.length <;> simp [h]

theorem foldl_subgraphStep_n (m : Nat → Option Nat) (L : List (Nat × Nat × β)) :
    ∀ out : Graph α β γ, (L.foldl (subgraphStep m) out).n = out.n := by
  induction L with
  | nil => intro out; rfl
  | cons e L ih =>
      intro out
      rw [List.foldl_cons, ih]
      rcases hm1 : m e.1 with _ | a <;> rcases hm2 : m e.2.1 with _ | b <;>
        simp [subgraphStep, hm1, hm2, Graph.n_addEdge]

theorem foldl_subgraphStep_vprops (m : Nat → Option Nat) (L : List (Nat × Nat × β)) :
    ∀ out : Graph α β γ, (L.foldl (subgraphStep m) out).vprops = out.vprops := by
  induction L with
  | nil => intro out; rfl
  | cons e L ih =>
      intro out
      rw [List.foldl_cons, ih]
      rcases hm1 : m e.1 with _ | a <;> rcases hm2 : m e.2.1 with _ | b <;>
        simp [subgraphStep, hm1, hm2, Graph.vprops_addEdge]

theorem foldl_subgraphStep_gprop (m : Nat → Option Nat) (L : List (Nat × Nat × β)) :
    ∀ out : Graph α β γ, (L.foldl (subgraphStep m) out).gprop = out.gprop := by
  induction L with
  | nil => intro out; rfl
  | cons e L ih =>
      intro out
      rw [List.foldl_cons, ih]
      rcases hm1 : m e.1 with _ | a <;> rcases hm2 : m e.2.1 with _ | b <;>
        simp [subgraphStep, hm1, hm2, Graph.gprop_addEdge]

theorem count_pair_singleton [DecidableEq β] (x y : Nat × β) :
    List.count x [y] = if x = y then 1 else 0 := by
  by_cases h : x = y <;> simp [List.count_cons, h]

theorem subgraphStep_count [DecidableEq β] (m : Nat → Option Nat) (e : Nat × Nat × β)
    (out : Graph α β γ) (i j : Nat) (p : β)
    (he : ∀ a b, m e.1 = some a → m e.2.1 = some b → a ≠ b ∧ a < out.n ∧ b < out.n) :
    ((subgraphStep m out e).adj i).count (j, p) =
      (out.adj i).count (j, p) +
      (if ((m e.1 = some i ∧ m e.2.1 = some j) ∨ (m e.1 = some j ∧ m e.2.1 = some i)) ∧
          e.2.2 = p then 1 else 0) := by
  rcases hm1 : m e.1 with _ | a
  · simp [subgraphStep, hm1]
  · rcases hm2 : m e.2.1 with _ | b
    · simp [subgraphStep, hm1, hm2]
    · obtain ⟨hab, han, hbn⟩ := he a b hm1 hm2
      have hstep : subgraphStep m out e = out.addEdge a b e.2.2 := by
        simp [subgraphStep, hm1, hm2]
      rw [hstep, Graph.adj_addEdge out a b e.2.2 han hbn hab i]
      simp only [Option.some.injEq]
      by_cases hia : i = a
      · rw [if_pos hia, List.count_append, count_pair_singleton, ← hia]
        by_cases hbj : b = j
        · rw [hbj]
          by_cases hpe : e.2.2 = p
          · rw [if_pos (by rw [hpe]), if_pos ⟨Or.inl ⟨rfl, rfl⟩, hpe⟩]
          · rw [if_neg (fun h : ((j, p) : Nat × β) = (j, e.2.2) =>
                hpe (congrArg Prod.snd h).symm),
              if_neg (fun h => hpe h.2)]
        · rw [if_neg (fun h : ((j, p) : Nat × β) = (b, e.2.2) =>
              hbj (congrArg Prod.fst h).symm), if_neg (by
            intro hcon
            rcases hcon.1 with h1 | h1
            · exact hbj h1.2
            · exact hbj (h1.2.trans h1.1))]
      · by_cases hib : i = b
        · rw [if_neg hia, if_pos hib, List.count_append, count_pair_singleton, ← hib]
          by_cases haj : a = j
          · rw [haj]
            by_cases hpe : e.2.2 = p
            · rw [if_pos (by rw [hpe]), if_pos ⟨Or.inr ⟨rfl, rfl⟩, hpe⟩]
            · rw [if_neg (fun h : ((j, p) : Nat × β) = (j, e.2.2) =>
                  hpe (congrArg Prod.snd h).symm),
                if_neg (fun h => hpe h.2)]
          · rw [if_neg (fun h : ((j, p) : Nat × β) = (a, e.2.2) =>
                haj (congrArg Prod.fst h).symm), if_neg (by
              intro hcon
              rcases hcon.1 with h1 | h1
              · exact haj (h1.1.trans h1.2)
              · exact haj h1.1)]
        · rw [if_neg hia, if_neg hib, if_neg (by
            intro hcon
            rcases hcon.1 with h1 | h1
            · exact hia h1.1.symm
            · exact hib h1.2.symm)]
          omega

theorem foldl_subgraphStep_count [DecidableEq β] (m : Nat → Option Nat)
    (L : List (Nat × Nat × β)) (i j : Nat) (p : β) :
    ∀ out : Graph α β γ,
    (∀ e ∈ L, ∀ a b, m e.1 = some a → m e.2.1 = some b → a ≠ b ∧ a < out.n ∧ b < out.n) →
    ((L.foldl (subgraphStep m) out).adj i).count (j, p) =
      (out.adj i).count (j, p) +
      L.countP (fun e => decide (((m e.1 = some i ∧ m e.2.1 = some j) ∨
        (m e.1 = some j ∧ m e.2.1 = some i)) ∧ e.2.2 = p)) := by
  induction L with
  | nil => intro out _; simp
  | cons e L ih =>
      intro out hL
      have hstep_n : (subgraphStep m out e).n = out.n := by
        rcases hm1 : m e.1 with _ | a <;> rcases hm2 : m e.2.1 with _ | b <;>
          simp [subgraphStep, hm1, hm2, Graph.n_addEdge]
      rw [List.foldl_cons, List.countP_cons,
        ih (subgraphStep m out e) (fun e2 he2 a b ha hb => by
          rw [hstep_n]; exact hL e2 (List.mem_cons_of_mem e he2) a b ha hb),
        subgraphStep_count m e out i j p (hL e (List.mem_cons_self e L))]
      simp only [decide_eq_true_eq]
      omega

theorem sum_map_range_single (n u : Nat) (f : Nat → Nat)
    (hz : ∀ x, x ≠ u → f x = 0) : ((List.range n).map f).sum = if u < n then f u else 0 := by
  induction n with
  | zero => simp
  | succ n ih =>
      rw [List.range_succ, List.map_append, List.sum_append, ih]
      simp only [List.map_cons, List.map_nil, List.sum_cons, List.sum_nil]
      by_cases hun : u = n
      · subst hun
        rw [if_neg (Nat.lt_irrefl u), if_pos (Nat.lt_succ_self u)]
        omega
      · rw [hz n (fun h => hun h.symm)]
        by_cases hul : u < n
        · rw [if_pos hul, if_pos (Nat.lt_succ_of_lt hul)]
          omega
        · rw [if_neg hul, if_neg (fun h =>
            hul (Nat.lt_of_le_of_ne (Nat.le_of_lt_succ h) hun))]
          omega

theorem edgesP_countP (g : Graph α β γ) (u : Nat) (P : Nat × β → Bool) :
    g.edgesP.countP (fun e => decide (e.1 = u) && P e.2) =
    ((g.adj u).filter fun e => decide (u ≤ e.1)).countP P := by
  unfold Graph.edgesP
  rw [List.countP_flatten, List.map_map]
  have hblock : ∀ w,
      ((List.countP fun e => decide (e.1 = u) && P e.2) ∘ fun w =>
        ((g.adj w).filter fun e => decide (w ≤ e.1)).map fun e => (w, e.1, e.2)) w =
      if w = u then ((g.adj u).filter fun e => decide (u ≤ e.1)).countP P else 0 := by
    intro w
    simp only [Function.comp_apply, List.countP_map]
    by_cases hw : w = u
    · subst hw
      rw [if_pos rfl]
      apply List.countP_congr
      intro e _
      simp
    · rw [if_neg hw]
      rw [List.countP_eq_zero]
      intro e _
      simp [hw]
  rw [List.map_congr_left (fun w _ => hblock w),
    sum_map_range_single g.n u _ (fun x hx => if_neg hx)]
  by_cases hu : u < g.n
  · rw [if_pos hu, if_pos rfl]
  · rw [if_neg hu, g.adj_eq_nil u (Nat.le_of_not_lt hu)]
    simp

theorem edgesP_count [DecidableEq β] (g : Graph α β γ) (x y : Nat) (q : β) :
    g.edgesP.count (x, y, q) = if x ≤ y then (g.adj x).count (y, q) else 0 := by
  have h1 : g.edgesP.count (x, y, q) =
      g.edgesP.countP (fun e => decide (e.1 = x) && decide (e.2 = (y, q))) := by
    rw [List.count]
    apply List.countP_congr
    intro e _
    simp [beq_iff_eq, Prod.ext_iff]
  rw [h1, edgesP_countP g x (fun z => decide (z = (y, q))), List.countP_filter]
  by_cases hxy : x ≤ y
  · rw [if_pos hxy, List.count]
    apply List.countP_congr
    intro e _
    by_cases he : e = (y, q)
    · subst he
      simp [hxy]
    · simp [he]
  · rw [if_neg hxy, List.countP_eq_zero]
    intro e _
    by_cases he : e = (y, q)
    · subst he
      simp [hxy]
    · simp [he]

theorem get_edges_count (g : Graph α β γ) (u v : Nat) :
    (get_edges g).count (u, v) =
      if u ≤ v then (g.adj u).countP (fun e => decide (e.1 = v)) else 0 := by
  unfold get_edges
  rw [List.count, List.countP_map]
  have h1 : g.edgesP.countP ((fun x => x == (u, v)) ∘ fun e => (e.1, e.2.1)) =
      g.edgesP.countP (fun e => decide (e.1 = u) && decide (e.2.1 = v)) := by
    apply List.countP_congr
    intro e _
    simp [beq_iff_eq, Prod.ext_iff]
  rw [h1, edgesP_countP g u (fun z => decide (z.1 = v)), List.countP_filter]
  by_cases huv : u ≤ v
  · rw [if_pos huv]
    apply List.countP_congr
    intro e _
    by_cases he : e.1 = v
    · simp [he, huv]
    · simp [he]
  · rw [if_neg huv, List.countP_eq_zero]
    intro e _
    by_cases he : e.1 = v
    · simp [he, huv]
    · simp [he]

theorem emult_eq_countP (g : Graph α β γ) (u v : Nat) :
    g.emult u v = (g.adj u).countP (fun e => decide (e.1 = v)) := by
  unfold Graph.emult Graph.nbrs
  rw [List.count, List.countP_map]
  apply List.countP_congr
  intro e _
  simp

/-- C6: get_edges emits each undirected edge of the graph exactly once and in
canonical form with the smaller endpoint first: every emitted pair (u, v)
satisfies u ≤ v, the multiplicity of (u, v) in the output equals the stored
multiplicity of the edge exactly when u ≤ v (and is zero otherwise), and on a
simple graph each present edge is emitted exactly once. -/
theorem c6_get_edges_each_edge_once (g : Graph α β γ) :
    (∀ e ∈ get_edges g, e.1 ≤ e.2) ∧
    (∀ u v : Nat, (get_edges g).count (u, v) = if u ≤ v then g.emult u v else 0) ∧
    (g.Simple → ∀ u v : Nat, u ≤ v → g.Adjacent u v → (get_edges g).count (u, v) = 1) := by
  have hcanon : ∀ e ∈ get_edges g, e.1 ≤ e.2 := by
    intro e he
    obtain ⟨z, hz, hze⟩ := List.mem_map.mp he
    obtain ⟨blk, hblk, hzblk⟩ := List.mem_flatten.mp hz
    obtain ⟨w, _, hwblk⟩ := List.mem_map.mp hblk
    rw [← hwblk] at hzblk
    obtain ⟨x, hx, hxz⟩ := List.mem_map.mp hzblk
    have hwx : w ≤ x.1 := by
      have := List.of_mem_filter hx
      simpa using this
    rw [← hze, ← hxz]
    simpa using hwx
  have hcount : ∀ u v : Nat,
      (get_edges g).count (u, v) = if u ≤ v then g.emult u v else 0 := by
    intro u v
    rw [get_edges_count, emult_eq_countP]
  refine ⟨hcanon, hcount, ?_⟩
  intro hs u v huv hadj
  have hun : u < g.n := by
    apply g.lt_of_adj_ne_nil
    intro hnil
    rw [Graph.Adjacent, Graph.nbrs, hnil] at hadj
    cases hadj
  rw [hcount u v, if_pos huv]
  exact List.count_eq_one_of_mem (hs.2 u hun) hadj

theorem c6_get_edges_each_edge_once_witness :
    (get_edges twoTriangles).count (0, 1) = 1 :=
  (c6_get_edges_each_edge_once twoTriangles).2.2 (by decide) 0 1 (by decide) (by decide)

theorem Graph.WF.count_symm [DecidableEq β] {g : Graph α β γ} (hg : g.WF) (u v : Nat) (p : β) :
    (g.adj u).count (v, p) = (g.adj v).count (u, p) := by
  by_cases hm : (v, p) ∈ g.adj u
  · have hu : u < g.n := g.lt_of_adj_ne_nil u (List.ne_nil_of_mem hm)
    exact hg.2.2 u hu (v, p) hm
  · by_cases hm2 : (u, p) ∈ g.adj v
    · have hv : v < g.n := g.lt_of_adj_ne_nil v (List.ne_nil_of_mem hm2)
      exact (hg.2.2 v hv (u, p) hm2).symm
    · rw [List.count_eq_zero.mpr hm, List.count_eq_zero.mpr hm2]

theorem mem_edgesP (g : Graph α β γ) (e : Nat × Nat × β) (he : e ∈ g.edgesP) :
    e.1 < g.n ∧ e.1 ≤ e.2.1 ∧ e.2 ∈ g.adj e.1 := by
  unfold Graph.edgesP at he
  obtain ⟨blk, hblk, hze⟩ := List.mem_flatten.mp he
  obtain ⟨w, hw, hwblk⟩ := List.mem_map.mp hblk
  rw [← hwblk] at hze
  obtain ⟨x, hx, hxz⟩ := List.mem_map.mp hze
  have hxmem := List.mem_of_mem_filter hx
  have hwx : w ≤ x.1 := by simpa using List.of_mem_filter hx
  rw [← hxz]
  exact ⟨List.mem_range.mp hw, by simpa using hwx, by simpa using hxmem⟩

theorem subgraph_n [Inhabited α] (g : Graph α β γ) (indices : List Nat) :
    (subgraph g indices).n = indices.length := by
  unfold subgraph
  rw [foldl_subgraphStep_n, subgraphBase_n]

theorem subgraph_vprops [Inhabited α] (g : Graph α β γ) (indices : List Nat) :
    (subgraph g indices).vprops = indices.map fun idx => g.vprops.getD idx default := by
  unfold subgraph
  rw [foldl_subgraphStep_vprops]
  rfl

theorem subgraph_gprop [Inhabited α] (g : Graph α β γ) (indices : List Nat) :
    (subgraph g indices).gprop = g.gprop := by
  unfold subgraph
  rw [foldl_subgraphStep_gprop]
  rfl

theorem countP_or_disjoint {δ : Type} (l : List δ) (pa pb : δ → Bool)
    (h : ∀ x ∈ l, ¬(pa x = true ∧ pb x = true)) :
    l.countP (fun x => pa x || pb x) = l.countP pa + l.countP pb := by
  induction l with
  | nil => simp
  | cons a t ih =>
      rw [List.countP_cons, List.countP_cons, List.countP_cons,
        ih (fun x hx => h x (List.mem_cons_of_mem a hx))]
      by_cases hpa : pa a = true
      · have hpb : ¬pb a = true := fun hb => h a (List.mem_cons_self a t) ⟨hpa, hb⟩
        simp [hpa, hpb]
        omega
      · by_cases hpb : pb a = true
        · simp [hpa, hpb]
          omega
        · simp [hpa, hpb]

theorem count_eq_of_lawful {δ : Type} [DecidableEq δ] [BEq δ] [LawfulBEq δ] (a : δ) (l : List δ) :
    l.count a = @List.count δ (@instBEqOfDecidableEq δ _) a l := by
  show l.countP (fun x => x == a) = l.countP (fun x => decide (x = a))
  apply List.countP_congr
  intro x _
  simp [beq_iff_eq]

theorem perm_of_count_eq {δ : Type} [DecidableEq δ] [BEq δ] [LawfulBEq δ] {l l2 : List δ}
    (h : ∀ a, l.count a = l2.count a) : l.Perm l2 := by
  apply List.perm_iff_count.mpr
  intro a
  rw [← count_eq_of_lawful a l, ← count_eq_of_lawful a l2]
  exact h a

theorem subgraph_hL [Inhabited α] [DecidableEq β] (g : Graph α β γ) (indices : List Nat)
    (hnl : g.NoLoops) (hnd : indices.Nodup) :
    ∀ e ∈ g.edgesP, ∀ a b, buildMap indices e.1 = some a → buildMap indices e.2.1 = some b →
      a ≠ b ∧ a < (subgraphBase g indices).n ∧ b < (subgraphBase g indices).n := by
  intro e he a b ha hb
  obtain ⟨ha1, ha2⟩ := (buildMap_eq_some_iff indices hnd e.1 a).mp ha
  obtain ⟨hb1, hb2⟩ := (buildMap_eq_some_iff indices hnd e.2.1 b).mp hb
  rw [subgraphBase_n]
  refine ⟨?_, ha1, hb1⟩
  intro hab
  subst hab
  rw [ha2] at hb2
  obtain ⟨hen, _, hmem⟩ := mem_edgesP g e he
  have hloop : e.2.1 ∈ g.nbrs e.1 := List.mem_map.mpr ⟨e.2, hmem, rfl⟩
  rw [← hb2] at hloop
  exact hnl e.1 hen hloop

theorem subgraph_adj_count_zero [Inhabited α] [DecidableEq β] (g : Graph α β γ)
    (indices : List Nat) (hnl : g.NoLoops) (hnd : indices.Nodup) (i j : Nat)
    (hj : indices.length ≤ j) (p : β) :
    ((subgraph g indices).adj i).count (j, p) = 0 := by
  unfold subgraph
  rw [foldl_subgraphStep_count (buildMap indices) g.edgesP i j p (subgraphBase g indices)
    (subgraph_hL g indices hnl hnd), subgraphBase_adj]
  simp only [List.count_nil, Nat.zero_add]
  rw [List.countP_eq_zero]
  intro e _
  simp only [decide_eq_true_eq]
  intro hcon
  rcases hcon.1 with ⟨_, h2⟩ | ⟨h2, _⟩ <;>
    exact absurd ((buildMap_eq_some_iff indices hnd _ j).mp h2).1 (Nat.not_lt.mpr hj)

theorem subgraph_adj_count [Inhabited α] [DecidableEq β] (g : Graph α β γ) (indices : List Nat)
    (hg : g.WF) (hnl : g.NoLoops) (hnd : indices.Nodup) (i j : Nat) (p : β)
    (hi : i < indices.length) (hj : j < indices.length) :
    ((subgraph g indices).adj i).count (j, p) =
      (g.adj (indices.getD i 0)).count (indices.getD j 0, p) := by
  unfold subgraph
  rw [foldl_subgraphStep_count (buildMap indices) g.edgesP i j p (subgraphBase g indices)
    (subgraph_hL g indices hnl hnd), subgraphBase_adj]
  simp only [List.count_nil, Nat.zero_add]
  have hmi : ∀ x, (buildMap indices x = some i) ↔ x = indices.getD i 0 := by
    intro x
    rw [buildMap_eq_some_iff indices hnd]
    constructor
    · intro h
      exact h.2.symm
    · intro h
      exact ⟨hi, h.symm⟩
  have hmj : ∀ x, (buildMap indices x = some j) ↔ x = indices.getD j 0 := by
    intro x
    rw [buildMap_eq_some_iff indices hnd]
    constructor
    · intro h
      exact h.2.symm
    · intro h
      exact ⟨hj, h.symm⟩
  by_cases hij : i = j
  · subst hij
    have hz : (g.adj (indices.getD i 0)).count (indices.getD i 0, p) = 0 := by
      rw [List.count_eq_zero]
      intro hmem
      have hun : indices.getD i 0 < g.n :=
        g.lt_of_adj_ne_nil _ (List.ne_nil_of_mem hmem)
      exact hnl _ hun (List.mem_map.mpr ⟨(indices.getD i 0, p), hmem, rfl⟩)
    rw [hz, List.countP_eq_zero]
    intro e he
    simp only [decide_eq_true_eq]
    intro hcon
    have hee : e.1 = indices.getD i 0 ∧ e.2.1 = indices.getD i 0 := by
      rcases hcon.1 with ⟨h1, h2⟩ | ⟨h1, h2⟩ <;> exact ⟨(hmi _).mp h1, (hmi _).mp h2⟩
    obtain ⟨hen, _, hmem⟩ := mem_edgesP g e he
    apply hnl e.1 hen
    have hnb : e.2.1 ∈ g.nbrs e.1 := List.mem_map.mpr ⟨e.2, hmem, rfl⟩
    rw [hee.2, ← hee.1] at hnb
    exact hnb
  · have huij : indices.getD i 0 ≠ indices.getD j 0 :=
      fun h => hij (getD_nodup_inj indices hnd i j hi hj h)
    have hsplit : (g.edgesP.countP fun e =>
        decide (((buildMap indices e.1 = some i ∧ buildMap indices e.2.1 = some j) ∨
          (buildMap indices e.1 = some j ∧ buildMap indices e.2.1 = some i)) ∧ e.2.2 = p)) =
        (g.edgesP.countP fun e => e == (indices.getD i 0, indices.getD j 0, p)) +
        (g.edgesP.countP fun e => e == (indices.getD j 0, indices.getD i 0, p)) := by
      rw [← countP_or_disjoint]
      · apply List.countP_congr
        intro e _
        obtain ⟨e1, e2, e3⟩ := e
        simp only [decide_eq_true_eq, Bool.or_eq_true, beq_iff_eq, Prod.mk.injEq]
        constructor
        · intro ⟨hdisj, hp⟩
          rcases hdisj with ⟨h1, h2⟩ | ⟨h1, h2⟩
          · exact Or.inl ⟨(hmi _).mp h1, (hmj _).mp h2, hp⟩
          · exact Or.inr ⟨(hmj _).mp h1, (hmi _).mp h2, hp⟩
        · intro hdisj
          rcases hdisj with ⟨h1, h2, h3⟩ | ⟨h1, h2, h3⟩
          · exact ⟨Or.inl ⟨(hmi _).mpr h1, (hmj _).mpr h2⟩, h3⟩
          · exact ⟨Or.inr ⟨(hmj _).mpr h1, (hmi _).mpr h2⟩, h3⟩
      · intro x _ hboth
        have h1 := eq_of_beq hboth.1
        have h2 := eq_of_beq hboth.2
        rw [h1] at h2
        exact huij (congrArg Prod.fst h2)
    rw [hsplit,
      show (g.edgesP.countP fun e => e == (indices.getD i 0, indices.getD j 0, p)) =
        g.edgesP.count (indices.getD i 0, indices.getD j 0, p) from rfl,
      show (g.edgesP.countP fun e => e == (indices.getD j 0, indices.getD i 0, p)) =
        g.edgesP.count (indices.getD j 0, indices.getD i 0, p) from rfl,
      edgesP_count, edgesP_count]
    rcases Nat.lt_trichotomy (indices.getD i 0) (indices.getD j 0) with h | h | h
    · rw [if_pos (Nat.le_of_lt h), if_neg (Nat.not_le.mpr h)]
      omega
    · exact absurd h huij
    · rw [if_neg (Nat.not_le.mpr h), if_pos (Nat.le_of_lt h),
        hg.count_symm (indices.getD j 0) (indices.getD i 0) p]
      omega

theorem map_getD_range {δ : Type} (l : List δ) (d : δ) :
    (List.range l.length).map (fun i => l.getD i d) = l := by
  apply List.ext_get
  · simp
  · intro n h1 h2
    simp [List.getD_eq_getElem?_getD, List.getElem?_eq_getElem (by simpa using h1)]

theorem range_getD (n i : Nat) (h : i < n) : (List.range n).getD i 0 = i := by
  rw [List.getD_eq_getElem?_getD, List.getElem?_range h]
  rfl

theorem getD_map {δ ε : Type} (l : List δ) (f : δ → ε) (i : Nat) (d : δ) (dd : ε)
    (hi : i < l.length) : (l.map f).getD i dd = f (l.getD i d) := by
  rw [List.getD_eq_getElem?_getD, List.getElem?_map, List.getElem?_eq_getElem hi,
    List.getD_eq_getElem?_getD, List.getElem?_eq_getElem hi]
  rfl

/-- Inducing on all vertex indices in ascending order reproduces the graph:
same vertex count, same vertex and graph properties, and adjacency lists equal
up to permutation. -/
theorem subgraph_range_spec [Inhabited α] [DecidableEq β] (g : Graph α β γ)
    (hg : g.WF) (hnl : g.NoLoops) :
    (subgraph g (List.range g.n)).n = g.n ∧
    (subgraph g (List.range g.n)).vprops = g.vprops ∧
    (subgraph g (List.range g.n)).gprop = g.gprop ∧
    (∀ i, ((subgraph g (List.range g.n)).adj i).Perm (g.adj i)) := by
  have hndr : (List.range g.n).Nodup := List.nodup_range g.n
  have hlen : (List.range g.n).length = g.n := List.length_range g.n
  refine ⟨?_, ?_, subgraph_gprop g _, ?_⟩
  · rw [subgraph_n, hlen]
  · rw [subgraph_vprops]
    have h1 : g.vprops.length = g.n := hg.1
    calc (List.range g.n).map (fun idx => g.vprops.getD idx default)
        = (List.range g.vprops.length).map (fun idx => g.vprops.getD idx default) := by
          rw [h1]
      _ = g.vprops := map_getD_range g.vprops default
  · intro i
    by_cases hin : i < g.n
    · apply perm_of_count_eq
      intro a
      obtain ⟨v, p⟩ := a
      by_cases hv : v < g.n
      · rw [subgraph_adj_count g (List.range g.n) hg hnl hndr i v p (by rw [hlen]; exact hin)
          (by rw [hlen]; exact hv), range_getD g.n i hin, range_getD g.n v hv]
      · rw [subgraph_adj_count_zero g (List.range g.n) hnl hndr i v
          (by rw [hlen]; exact Nat.le_of_not_lt hv) p]
        rw [Eq.comm, List.count_eq_zero]
        intro hmem
        exact hv (hg.adj_lt i (v, p) hmem)
    · have h1 : (subgraph g (List.range g.n)).adj i = [] := by
        apply Graph.adj_eq_nil
        rw [subgraph_n, hlen]
        exact Nat.le_of_not_lt hin
      have h2 : g.adj i = [] := g.adj_eq_nil i (Nat.le_of_not_lt hin)
      rw [h1, h2]

/-- C2: subgraph produces a graph with exactly |indices| vertices, where new
vertex i carries the property of old vertex indices[i], the graph-level
property is copied from g, and the edges are exactly the edges of g with both
endpoints kept, relabeled via indices[i] to i and keeping multiplicities and
edge properties; inducing on all indices in ascending order yields a graph
with the same vertex count, the same vertex and graph properties, and the same
edge set (adjacency lists equal up to permutation). -/
theorem c2_subgraph_induced [Inhabited α] [DecidableEq β] (g : Graph α β γ)
    (hg : g.WF) (hnl : g.NoLoops) :
    (∀ indices : List Nat, indices.Nodup → (∀ x ∈ indices, x < g.n) →
      (subgraph g indices).n = indices.length ∧
      (∀ i, i < indices.length →
        (subgraph g indices).vprops.getD i default = g.vprops.getD (indices.getD i 0) default) ∧
      (subgraph g indices).gprop = g.gprop ∧
      (∀ i j, i < indices.length → j < indices.length → ∀ p : β,
        ((subgraph g indices).adj i).count (j, p) =
          (g.adj (indices.getD i 0)).count (indices.getD j 0, p))) ∧
    ((subgraph g (List.range g.n)).n = g.n ∧
     (subgraph g (List.range g.n)).vprops = g.vprops ∧
     (subgraph g (List.range g.n)).gprop = g.gprop ∧
     (∀ i, ((subgraph g (List.range g.n)).adj i).Perm (g.adj i))) := by
  constructor
  · intro indices hnd _
    refine ⟨subgraph_n g indices, ?_, subgraph_gprop g indices, ?_⟩
    · intro i hi
      rw [subgraph_vprops]
      exact getD_map indices _ i 0 default hi
    · intro i j hi hj p
      exact subgraph_adj_count g indices hg hnl hnd i j p hi hj
  · exact subgraph_range_spec g hg hnl

theorem c2_subgraph_induced_witness :
    (subgraph twoTriangles [3, 4, 5]).n = 3 ∧
    ((subgraph twoTriangles [3, 4, 5]).adj 0).count (1, ()) =
      (twoTriangles.adj 3).count (4, ()) ∧
    (subgraph twoTriangles (List.range twoTriangles.n)).n = twoTriangles.n :=
  have h := c2_subgraph_induced twoTriangles (by decide) (by decide)
  have h1 := h.1 [3, 4, 5] (by decide) (by decide)
  ⟨h1.1, h1.2.2.2 0 1 (by decide) (by decide) (), h.2.1⟩

/-!
Component selector: filterComponents, largestComponentIndices,
largestComponent, translated from the source.
-/

/-- Number of vertices carrying a given component label: the value of the
count vector accumulated by looping over the label of every vertex. -/
def labelCount (g : Graph α β γ) (lbl : Nat) : Nat :=
  (List.range g.n).countP fun u => decide ((findComponentsFun g).1 u = lbl)

/-- Translation of filterComponents: find connected components, count vertices
per label, keep (in ascending order) every vertex whose component has at least
min_size vertices, and build the induced subgraph on the kept vertices. -/
def filterComponents [Inhabited α] (g : Graph α β γ) (min_size : Nat) : Graph α β γ :=
  subgraph g ((List.range g.n).filter fun u =>
    decide (min_size ≤ labelCount g ((findComponentsFun g).1 u)))

theorem labelCount_pos (g : Graph α β γ) (u : Nat) (hu : u < g.n) :
    0 < labelCount g ((findComponentsFun g).1 u) := by
  apply List.countP_pos.mpr
  exact ⟨u, List.mem_range.mpr hu, by simp⟩

theorem labelCount_le (g : Graph α β γ) (lbl : Nat) : labelCount g lbl ≤ g.n := by
  calc labelCount g lbl ≤ (List.range g.n).length := List.countP_le_length _
    _ = g.n := List.length_range g.n

/-- C8: filtering by minimum component size 1 keeps every vertex and every
edge (the result has the same vertex count, the same vertex and graph
properties, and adjacency lists equal up to permutation); filtering by any
minimum size strictly greater than the vertex count yields the empty graph. -/
theorem c8_filterComponents_identity_and_empty [Inhabited α] [DecidableEq β]
    (g : Graph α β γ) (hg : g.WF) (hnl : g.NoLoops) :
    ((filterComponents g 1).n = g.n ∧
     (filterComponents g 1).vprops = g.vprops ∧
     (filterComponents g 1).gprop = g.gprop ∧
     (∀ i, ((filterComponents g 1).adj i).Perm (g.adj i))) ∧
    (∀ k, g.n < k →
      (filterComponents g k).n = 0 ∧ (filterComponents g k).vprops = [] ∧
      (filterComponents g k).adjs = []) := by
  constructor
  · have hkeep : ((List.range g.n).filter fun u =>
        decide (1 ≤ labelCount g ((findComponentsFun g).1 u))) = List.range g.n := by
      apply List.filter_eq_self.mpr
      intro u hu
      simp only [decide_eq_true_eq]
      exact labelCount_pos g u (List.mem_range.mp hu)
    rw [filterComponents, hkeep]
    exact subgraph_range_spec g hg hnl
  · intro k hk
    have hkeep : ((List.range g.n).filter fun u =>
        decide (k ≤ labelCount g ((findComponentsFun g).1 u))) = [] := by
      apply List.filter_eq_nil.mpr
      intro u _
      simp only [decide_eq_true_eq]
      intro hcon
      exact absurd (Nat.le_trans hcon (labelCount_le g _)) (Nat.not_le.mpr hk)
    rw [filterComponents, hkeep]
    have hn : (subgraph g []).n = 0 := subgraph_n g []
    refine ⟨hn, ?_, ?_⟩
    · rw [subgraph_vprops]
      rfl
    · exact List.eq_nil_of_length_eq_zero hn

theorem c8_filterComponents_identity_and_empty_witness :
    (filterComponents twoTriangles 1).n = twoTriangles.n ∧
    (filterComponents twoTriangles 7).n = 0 :=
  have h := c8_filterComponents_identity_and_empty twoTriangles (by decide) (by decide)
  ⟨h.1.1, (h.2 7 (by decide)).1⟩

/-- Translation of largestComponentIndices' selection loop: scan candidate
label ids 0..n-1 in ascending order, replacing the current best only on a
strictly greater count, starting from label 0. -/
def largestLabel (g : Graph α β γ) : Nat :=
  (List.range g.n).foldl
    (fun largest i => if labelCount g largest < labelCount g i then i else largest) 0

/-- Translation of largestComponentIndices: collect, in ascending index order,
the vertices whose component label is the selected largest label. -/
def largestComponentIndices (g : Graph α β γ) : List Nat :=
  (List.range g.n).filter fun u => decide ((findComponentsFun g).1 u = largestLabel g)

/-- Translation of largestComponent: induce the subgraph on the vertices of
the largest connected component. -/
def largestComponent [Inhabited α] (g : Graph α β γ) : Graph α β γ :=
  subgraph g (largestComponentIndices g)

theorem foldl_argmax_spec (f : Nat → Nat) (n : Nat) :
    (∀ i, i < n →
      f i ≤ f ((List.range n).foldl (fun acc j => if f acc < f j then j else acc) 0)) ∧
    (∀ i, i < n →
      f i = f ((List.range n).foldl (fun acc j => if f acc < f j then j else acc) 0) →
      ((List.range n).foldl (fun acc j => if f acc < f j then j else acc) 0) ≤ i) ∧
    (((List.range n).foldl (fun acc j => if f acc < f j then j else acc) 0) = 0 ∨
      ((List.range n).foldl (fun acc j => if f acc < f j then j else acc) 0) < n) := by
  induction n with
  | zero =>
      exact ⟨fun i hi => absurd hi (Nat.not_lt_zero i),
        fun i hi => absurd hi (Nat.not_lt_zero i), Or.inl rfl⟩
  | succ n ih =>
      obtain ⟨iha, ihb, ihc⟩ := ih
      rw [List.range_succ, List.foldl_append, List.foldl_cons, List.foldl_nil]
      by_cases hstep :
          f ((List.range n).foldl (fun acc j => if f acc < f j then j else acc) 0) < f n
      · rw [if_pos hstep]
        refine ⟨?_, ?_, Or.inr (Nat.lt_succ_self n)⟩
        · intro i hi
          rcases Nat.lt_succ_iff_lt_or_eq.mp hi with h | h
          · exact Nat.le_trans (iha i h) (Nat.le_of_lt hstep)
          · subst h
            exact Nat.le_refl _
        · intro i hi hfi
          rcases Nat.lt_succ_iff_lt_or_eq.mp hi with h | h
          · exfalso
            have h2 := iha i h
            rw [hfi] at h2
            exact absurd hstep (Nat.not_lt.mpr h2)
          · subst h
            exact Nat.le_refl _
      · rw [if_neg hstep]
        have hLn : (List.range n).foldl (fun acc j => if f acc < f j then j else acc) 0 ≤ n := by
          rcases ihc with h | h
          · rw [h]
            exact Nat.zero_le n
          · exact Nat.le_of_lt h
        refine ⟨?_, ?_, ?_⟩
        · intro i hi
          rcases Nat.lt_succ_iff_lt_or_eq.mp hi with h | h
          · exact iha i h
          · subst h
            exact Nat.le_of_not_lt hstep
        · intro i hi hfi
          rcases Nat.lt_succ_iff_lt_or_eq.mp hi with h | h
          · exact ihb i h hfi
          · subst h
            exact hLn
        · rcases ihc with h | h
          · exact Or.inl h
          · exact Or.inr (Nat.lt_succ_of_lt h)

theorem findComponentsFun_k_le_n [DecidableEq β] (g : Graph α β γ) (hg : g.WF) :
    (findComponentsFun g).2 ≤ g.n := by
  obtain ⟨_, _, hC⟩ := findComponentsFun_correct g hg
  have hsurj : Set.SurjOn (findComponentsFun g).1 ↑(Finset.range g.n)
      ↑(Finset.range (findComponentsFun g).2) := by
    intro lbl hl
    obtain ⟨u, hu, he⟩ := hC lbl (by simpa using hl)
    exact ⟨u, by simpa using hu, he⟩
  have h := Finset.card_le_card_of_surjOn _ hsurj
  simpa using h

theorem largestComponentIndices_mem (g : Graph α β γ) (u : Nat) :
    u ∈ largestComponentIndices g ↔
      u < g.n ∧ (findComponentsFun g).1 u = largestLabel g := by
  unfold largestComponentIndices
  rw [List.mem_filter]
  simp [List.mem_range]

theorem largestComponentIndices_nodup (g : Graph α β γ) :
    (largestComponentIndices g).Nodup :=
  List.Nodup.filter _ (List.nodup_range g.n)

theorem largestComponentIndices_length (g : Graph α β γ) :
    (largestComponentIndices g).length = labelCount g (largestLabel g) := by
  unfold largestComponentIndices labelCount
  rw [← List.countP_eq_length_filter]

theorem getD_mem_of_lt (l : List Nat) (i : Nat) (hi : i < l.length) : l.getD i 0 ∈ l := by
  rw [List.getD_eq_getElem l 0 hi]
  exact List.getElem_mem hi

theorem subgraph_adjacent_transfer [Inhabited α] [DecidableEq β] (g : Graph α β γ)
    (indices : List Nat) (hg : g.WF) (hnl : g.NoLoops) (hnd : indices.Nodup)
    (i j : Nat) (hi : i < indices.length) (hj : j < indices.length)
    (hadj : g.Adjacent (indices.getD i 0) (indices.getD j 0)) :
    (subgraph g indices).Adjacent i j := by
  obtain ⟨e, he, hfst⟩ := List.mem_map.mp hadj
  have hmem : (indices.getD j 0, e.2) ∈ g.adj (indices.getD i 0) := by
    rw [← hfst]
    exact he
  have hpos : 0 < ((subgraph g indices).adj i).count (j, e.2) := by
    rw [subgraph_adj_count g indices hg hnl hnd i j e.2 hi hj]
    exact List.count_pos_iff.mpr hmem
  have hmem2 : (j, e.2) ∈ (subgraph g indices).adj i := List.count_pos_iff.mp hpos
  exact List.mem_map.mpr ⟨(j, e.2), hmem2, rfl⟩

theorem largest_reach_transfer [Inhabited α] [DecidableEq β] (g : Graph α β γ)
    (hg : g.WF) (hnl : g.NoLoops) :
    ∀ u v, g.Reach u v → ∀ i, buildMap (largestComponentIndices g) u = some i →
      ∃ j, buildMap (largestComponentIndices g) v = some j ∧
        (largestComponent g).Reach i j := by
  have hnd := largestComponentIndices_nodup g
  have hA := (findComponentsFun_correct g hg).1
  intro u v hreach
  induction hreach with
  | refl =>
      intro i hi
      exact ⟨i, hi, Relation.ReflTransGen.refl⟩
  | tail hab hbc ih =>
      rename_i b c
      intro i hi
      obtain ⟨jb, hjb, hr⟩ := ih i hi
      obtain ⟨hjblt, hgetb⟩ := (buildMap_eq_some_iff _ hnd _ _).mp hjb
      have hbmem : b ∈ largestComponentIndices g := by
        rw [← hgetb]
        exact getD_mem_of_lt _ jb hjblt
      obtain ⟨hbn, hbl⟩ := (largestComponentIndices_mem g b).mp hbmem
      have hcn : c < g.n := hg.nbrs_lt b c hbc
      have hcl : (findComponentsFun g).1 c = largestLabel g := by
        have hbc2 : (findComponentsFun g).1 b = (findComponentsFun g).1 c :=
          (hA b hbn c hcn).mpr (Relation.ReflTransGen.single hbc)
        rw [← hbc2]
        exact hbl
      have hcmem : c ∈ largestComponentIndices g :=
        (largestComponentIndices_mem g c).mpr ⟨hcn, hcl⟩
      obtain ⟨jc, hjclt, hgetc⟩ := List.mem_iff_getElem.mp hcmem
      have hjc : buildMap (largestComponentIndices g) c = some jc := by
        apply (buildMap_eq_some_iff _ hnd _ _).mpr
        refine ⟨hjclt, ?_⟩
        rw [List.getD_eq_getElem _ 0 hjclt]
        exact hgetc
      refine ⟨jc, hjc, Relation.ReflTransGen.tail hr ?_⟩
      apply subgraph_adjacent_transfer g (largestComponentIndices g) hg hnl hnd jb jc hjblt hjclt
      rw [hgetb, List.getD_eq_getElem _ 0 hjclt, hgetc]
      exact hbc

/-- C4: largestComponentIndices selects the component label with the maximum
vertex count, breaking ties in favor of the lowest label id (ascending scan
with strict greater-than), and returns the vertices carrying that label in
ascending index order; largestComponent is connected (any two of its vertices
are joined by a path) and its vertex count equals the selected label's vertex
count. -/
theorem c4_largestComponent_selection_connectivity [Inhabited α] [DecidableEq β]
    (g : Graph α β γ) (hg : g.WF) (hnl : g.NoLoops) :
    (∀ c, c < (findComponentsFun g).2 → labelCount g c ≤ labelCount g (largestLabel g)) ∧
    (∀ c, c < (findComponentsFun g).2 → labelCount g c = labelCount g (largestLabel g) →
      largestLabel g ≤ c) ∧
    (0 < g.n → largestLabel g < (findComponentsFun g).2) ∧
    (largestComponentIndices g).Pairwise (· < ·) ∧
    (∀ u, u ∈ largestComponentIndices g ↔
      u < g.n ∧ (findComponentsFun g).1 u = largestLabel g) ∧
    (largestComponent g).n = labelCount g (largestLabel g) ∧
    (∀ i j, i < (largestComponent g).n → j < (largestComponent g).n →
      (largestComponent g).Reach i j) := by
  obtain ⟨harga, hargb, _⟩ := foldl_argmax_spec (labelCount g) g.n
  have hkn : (findComponentsFun g).2 ≤ g.n := findComponentsFun_k_le_n g hg
  have hA := (findComponentsFun_correct g hg).1
  have hB := (findComponentsFun_correct g hg).2.1
  refine ⟨?_, ?_, ?_, ?_, largestComponentIndices_mem g, ?_, ?_⟩
  · intro c hc
    exact harga c (Nat.lt_of_lt_of_le hc hkn)
  · intro c hc
    exact hargb c (Nat.lt_of_lt_of_le hc hkn)
  · intro hn
    have h0k : (findComponentsFun g).1 0 < (findComponentsFun g).2 := hB 0 hn
    have hle : labelCount g ((findComponentsFun g).1 0) ≤ labelCount g (largestLabel g) :=
      harga _ (Nat.lt_of_lt_of_le h0k hkn)
    have hpos : 0 < labelCount g (largestLabel g) :=
      Nat.lt_of_lt_of_le (labelCount_pos g 0 hn) hle
    obtain ⟨u, hu, hul⟩ := List.countP_pos.mp hpos
    have hun : u < g.n := List.mem_range.mp hu
    have hul2 : (findComponentsFun g).1 u = largestLabel g := by simpa using hul
    rw [← hul2]
    exact hB u hun
  · exact List.Pairwise.filter _ (List.pairwise_lt_range g.n)
  · rw [largestComponent, subgraph_n, largestComponentIndices_length]
  · intro i j hi hj
    have hlen : (largestComponent g).n = (largestComponentIndices g).length := by
      rw [largestComponent, subgraph_n]
    rw [hlen] at hi hj
    have hnd := largestComponentIndices_nodup g
    have hui : (largestComponentIndices g).getD i 0 ∈ largestComponentIndices g :=
      getD_mem_of_lt _ i hi
    have huj : (largestComponentIndices g).getD j 0 ∈ largestComponentIndices g :=
      getD_mem_of_lt _ j hj
    obtain ⟨huin, huil⟩ := (largestComponentIndices_mem g _).mp hui
    obtain ⟨hujn, hujl⟩ := (largestComponentIndices_mem g _).mp huj
    have hreach : g.Reach ((largestComponentIndices g).getD i 0)
        ((largestComponentIndices g).getD j 0) :=
      (hA _ huin _ hujn).mp (huil.trans hujl.symm)
    have hmi : buildMap (largestComponentIndices g) ((largestComponentIndices g).getD i 0) =
        some i := (buildMap_eq_some_iff _ hnd _ _).mpr ⟨hi, rfl⟩
    have hmj : buildMap (largestComponentIndices g) ((largestComponentIndices g).getD j 0) =
        some j := (buildMap_eq_some_iff _ hnd _ _).mpr ⟨hj, rfl⟩
    obtain ⟨j2, hj2, hr⟩ := largest_reach_transfer g hg hnl _ _ hreach i hmi
    have hjj : j2 = j := by
      rw [hmj] at hj2
      exact (Option.some.inj hj2).symm
    rw [← hjj]
    exact hr

theorem c4_largestComponent_selection_connectivity_witness :
    (largestComponent twoTriangles).n = labelCount twoTriangles (largestLabel twoTriangles) ∧
    (0 < twoTriangles.n → largestLabel twoTriangles < (findComponentsFun twoTriangles).2) :=
  have h := c4_largestComponent_selection_connectivity twoTriangles (by decide) (by decide)
  ⟨h.2.2.2.2.2.1, h.2.2.1⟩

/-!
Degree-preserving randomizer, translated from randomizeEndpoints in the
source.
-/

/-- Modelled from the spec / boost semantics: remove_edge(u, v, g) removes
every stored instance of the undirected edge (u, v) from both endpoints'
adjacency lists. -/
def removeHalf (adjs : List (List (Nat × β))) (u v : Nat) : List (List (Nat × β)) :=
  adjs.set u ((adjs.getD u []).filter fun e => decide (e.1 ≠ v))

/-- Modelled from the spec / boost semantics: symmetric removal of an
undirected edge. -/
def Graph.removeEdge (g : Graph α β γ) (u v : Nat) : Graph α β γ :=
  { g with adjs := removeHalf (removeHalf g.adjs u v) v u }

/-- One candidate swap drawn by the randomizer: the two sampled edge indices
and the two orientation draws (gen() % 2 == 0). -/
structure Attempt where
  e1 : Nat
  e2 : Nat
  o1 : Bool
  o2 : Bool
deriving DecidableEq, Repr

/-- State of the randomizer loop: the graph being mutated in place, the live
snapshot of its edges, and the number of accepted swaps so far. -/
structure RState (α β γ : Type) where
  g : Graph α β γ
  edges : List (Nat × Nat)
  swaps : Nat
deriving DecidableEq, Repr

/-- The graph mutation of one accepted swap: remove (a1,a2) and (b1,b2), then
add (a1,b2) and (b1,a2); the source's add_edge calls pass no edge property, so
a default-constructed property is stored. -/
def doSwap [Inhabited β] (g : Graph α β γ) (a1 a2 b1 b2 : Nat) : Graph α β γ :=
  (((g.removeEdge a1 a2).removeEdge b1 b2).addEdge a1 b2 default).addEdge b1 a2 default

/-- Translation of the body of the randomizer's while loop for one attempt:
redraw when the two edge indices coincide; orient both edges by the draws;
reject when any endpoints coincide pairwise across the two edges; reject when
either candidate new edge already exists; otherwise swap, update the two
snapshot entries in place and count the accepted swap.  Returns none when an
edge index falls outside the snapshot, which in the source is an out-of-bounds
vector access (undefined behavior). -/
def swapAttempt [Inhabited β] (st : RState α β γ) (a : Attempt) : Option (RState α β γ) :=
  if a.e1 = a.e2 then some st else
  match st.edges[a.e1]?, st.edges[a.e2]? with
  | some p1, some p2 =>
    let a1 := if a.o1 then p1.1 else p1.2
    let a2 := if a.o1 then p1.2 else p1.1
    let b1 := if a.o2 then p2.1 else p2.2
    let b2 := if a.o2 then p2.2 else p2.1
    if a1 = b1 ∨ a1 = b2 ∨ a2 = b1 ∨ a2 = b2 then some st
    else if is_adjacent st.g a1 b2 ∨ is_adjacent st.g b1 a2 then some st
    else some { g := doSwap st.g a1 a2 b1 b2,
                edges := (st.edges.set a.e1 (a1, b2)).set a.e2 (b1, a2),
                swaps := st.swaps + 1 }
  | _, _ => none

/-- Entry state of randomizeEndpoints: snapshot the edge list, zero accepted
swaps. -/
def initState (g : Graph α β γ) : RState α β γ :=
  { g := g, edges := get_edges g, swaps := 0 }

/-- The randomizer's while loop, driven by an arbitrary finite stream of
draws: while fewer than count swaps are accepted, consume the next attempt.
The source's loop draws from an engine forever; a finite stream models any
finite prefix of its execution. -/
def randomizeRun [Inhabited β] (count : Nat) :
    RState α β γ → List Attempt → Option (RState α β γ)
  | st, [] => some st
  | st, a :: rest =>
      if st.swaps < count then
        match swapAttempt st a with
        | some st2 => randomizeRun count st2 rest
        | none => none
      else some st

theorem Graph.n_removeEdge (g : Graph α β γ) (u v : Nat) : (g.removeEdge u v).n = g.n := by
  simp [Graph.removeEdge, removeHalf, Graph.n]

theorem Graph.vprops_removeEdge (g : Graph α β γ) (u v : Nat) :
    (g.removeEdge u v).vprops = g.vprops := rfl

theorem Graph.gprop_removeEdge (g : Graph α β γ) (u v : Nat) :
    (g.removeEdge u v).gprop = g.gprop := rfl

theorem doSwap_frame [Inhabited β] (g : Graph α β γ) (a1 a2 b1 b2 : Nat) :
    (doSwap g a1 a2 b1 b2).vprops = g.vprops ∧
    (doSwap g a1 a2 b1 b2).gprop = g.gprop ∧
    (doSwap g a1 a2 b1 b2).n = g.n := by
  refine ⟨rfl, rfl, ?_⟩
  rw [doSwap, Graph.n_addEdge, Graph.n_addEdge, Graph.n_removeEdge, Graph.n_removeEdge]

theorem swapAttempt_frame [Inhabited β] (st st2 : RState α β γ) (a : Attempt)
    (h : swapAttempt st a = some st2) :
    st2.g.vprops = st.g.vprops ∧ st2.g.gprop = st.g.gprop ∧ st2.g.n = st.g.n ∧
    st2.edges.length = st.edges.length := by
  rw [swapAttempt] at h
  by_cases he : a.e1 = a.e2
  · rw [if_pos he] at h
    rw [← Option.some.inj h]
    exact ⟨rfl, rfl, rfl, rfl⟩
  · rw [if_neg he] at h
    rcases h1 : st.edges[a.e1]? with _ | p1 <;> rcases h2 : st.edges[a.e2]? with _ | p2 <;>
      rw [h1, h2] at h
    · cases h
    · cases h
    · cases h
    · dsimp only at h
      repeat' split at h
      all_goals rw [← Option.some.inj h]
      all_goals first
        | exact ⟨rfl, rfl, rfl, rfl⟩
        | (refine ⟨(doSwap_frame _ _ _ _ _).1, (doSwap_frame _ _ _ _ _).2.1,
            (doSwap_frame _ _ _ _ _).2.2, ?_⟩
           simp [List.length_set])

theorem randomizeRun_frame [Inhabited β] (count : Nat) (l : List Attempt) :
    ∀ st st2 : RState α β γ, randomizeRun count st l = some st2 →
    st2.g.vprops = st.g.vprops ∧ st2.g.gprop = st.g.gprop ∧ st2.g.n = st.g.n ∧
    st2.edges.length = st.edges.length := by
  induction l with
  | nil =>
      intro st st2 h
      rw [randomizeRun] at h
      rw [← Option.some.inj h]
      exact ⟨rfl, rfl, rfl, rfl⟩
  | cons a rest ih =>
      intro st st2 h
      rw [randomizeRun] at h
      by_cases hc : st.swaps < count
      · rw [if_pos hc] at h
        rcases hs : swapAttempt st a with _ | stm <;> rw [hs] at h
        · cases h
        · obtain ⟨f1, f2, f3, f4⟩ := swapAttempt_frame st stm a hs
          obtain ⟨g1, g2, g3, g4⟩ := ih stm st2 h
          exact ⟨g1.trans f1, g2.trans f2, g3.trans f3, g4.trans f4⟩
      · rw [if_neg hc] at h
        rw [← Option.some.inj h]
        exact ⟨rfl, rfl, rfl, rfl⟩

/-- C9: with a requested swap count of zero the randomizer leaves the graph
byte-for-byte unchanged; in general, whenever a run returns, the vertex count,
every vertex property and the graph-level property equal their values at
entry — only the edge structure may change. -/
theorem c9_randomize_frame [Inhabited β] :
    (∀ (g : Graph α β γ) (l : List Attempt),
      randomizeRun 0 (initState g) l = some (initState g)) ∧
    (∀ (g : Graph α β γ) (count : Nat) (l : List Attempt) (st2 : RState α β γ),
      randomizeRun count (initState g) l = some st2 →
      st2.g.vprops = g.vprops ∧ st2.g.gprop = g.gprop ∧ st2.g.n = g.n) := by
  constructor
  · intro g l
    cases l with
    | nil => rw [randomizeRun]
    | cons a rest =>
        rw [randomizeRun, if_neg (Nat.not_lt_zero _)]
  · intro g count l st2 h
    obtain ⟨h1, h2, h3, _⟩ := randomizeRun_frame count l (initState g) st2 h
    exact ⟨h1, h2, h3⟩

/-- The star graph of the spec's scenario: center 0, leaves 1..4. -/
def star5 : Graph Unit Unit Unit :=
  { vprops := [(), (), (), (), ()],
    adjs := [[(1, ()), (2, ()), (3, ()), (4, ())], [(0, ())], [(0, ())], [(0, ())], [(0, ())]],
    gprop := () }

theorem c9_randomize_frame_witness :
    randomizeRun 0 (initState star5) [⟨0, 1, true, true⟩] = some (initState star5) ∧
    star5.vprops = star5.vprops ∧ star5.gprop = star5.gprop ∧ star5.n = star5.n :=
  ⟨(c9_randomize_frame (α := Unit) (β := Unit) (γ := Unit)).1 star5 [⟨0, 1, true, true⟩],
    (c9_randomize_frame (α := Unit) (β := Unit) (γ := Unit)).2 star5 3 [] (initState star5) rfl⟩

theorem star_attempt [Inhabited β] (st : RState α β γ) (a : Attempt)
    (hstar : ∀ p ∈ st.edges, p.1 = 0 ∨ p.2 = 0) :
    swapAttempt st a = some st ∨ swapAttempt st a = none := by
  rw [swapAttempt]
  by_cases he : a.e1 = a.e2
  · rw [if_pos he]
    exact Or.inl rfl
  · rw [if_neg he]
    rcases h1 : st.edges[a.e1]? with _ | p1
    · exact Or.inr rfl
    · rcases h2 : st.edges[a.e2]? with _ | p2
      · exact Or.inr rfl
      · left
        dsimp only
        rw [if_pos ?hcond]
        case hcond =>
          have hp1 : p1.1 = 0 ∨ p1.2 = 0 := hstar p1 (List.getElem?_mem h1)
          have hp2 : p2.1 = 0 ∨ p2.2 = 0 := hstar p2 (List.getElem?_mem h2)
          rcases hp1 with hx | hx <;> rcases hp2 with hy | hy <;>
            cases ho1 : a.o1 <;> cases ho2 : a.o2 <;> simp [hx, hy]

theorem star_run [Inhabited β] (count : Nat) (l : List Attempt) (st : RState α β γ)
    (hstar : ∀ p ∈ st.edges, p.1 = 0 ∨ p.2 = 0) :
    randomizeRun count st l = some st ∨ randomizeRun count st l = none := by
  induction l with
  | nil => exact Or.inl rfl
  | cons a rest ih =>
      rw [randomizeRun]
      by_cases hc : st.swaps < count
      · rw [if_pos hc]
        rcases star_attempt st a hstar with h | h <;> rw [h]
        · exact ih
        · exact Or.inr rfl
      · rw [if_neg hc]
        exact Or.inl rfl

/-- C5: on the star graph (center 0, leaves 1..4) the randomizer makes no
progress, ever: any finite prefix of the loop's execution either leaves the
state exactly at its initial value with zero accepted swaps (every draw is
rejected, since both sampled edges always share the center vertex), or hits an
out-of-bounds snapshot access.  Consequently, for any requested count > 0 the
while loop never exits; the source defines no UnsatisfiableSwapRequest error
and cannot report one. -/
theorem c5_star_randomizer_no_progress :
    ∀ (count : Nat) (l : List Attempt),
      randomizeRun count (initState star5) l = some (initState star5) ∨
      randomizeRun count (initState star5) l = none := by
  intro count l
  apply star_run
  decide

/-- The two-vertex graph with no edges, for the empty-sampling-range
scenario. -/
def noEdges2 : Graph Unit Unit Unit :=
  { vprops := [(), ()], adjs := [[], []], gprop := () }

/-- C7: invoking the randomizer on a graph with zero edges never fails
explicitly: every finite prefix of the loop's execution either reads the empty
edge vector out of bounds (none: in the source, edges.size()-1 underflows to
SIZE_MAX when constructing the distribution and edges[e1] is then undefined
behavior) or spins forever on rejected draws with the state unchanged and
zero accepted swaps; no EmptyGraphOperation error exists in the code. -/
theorem c7_empty_randomizer_stuck :
    ∀ (count : Nat) (l : List Attempt),
      randomizeRun count (initState noEdges2) l = some (initState noEdges2) ∨
      randomizeRun count (initState noEdges2) l = none := by
  intro count l
  induction l with
  | nil => exact Or.inl rfl
  | cons a rest ih =>
      rw [randomizeRun]
      by_cases hc : (initState noEdges2).swaps < count
      · rw [if_pos hc]
        have hempty : (initState noEdges2).edges = [] := by decide
        have hstep : swapAttempt (initState noEdges2) a = some (initState noEdges2) ∨
            swapAttempt (initState noEdges2) a = none := by
          rw [swapAttempt]
          by_cases he : a.e1 = a.e2
          · rw [if_pos he]
            exact Or.inl rfl
          · rw [if_neg he, hempty]
            exact Or.inr rfl
        rcases hstep with h | h <;> rw [h]
        · exact ih
        · exact Or.inr rfl
      · rw [if_neg hc]
        exact Or.inl rfl

/-- Model of std::default_random_engine as constructed by the source with no
seed: libstdc++'s minstd_rand0, a linear congruential engine producing
x' = 16807 * x mod 2147483647, default-seeded with 1.  The engine type and the
index mapping of std::uniform_int_distribution are implementation-defined, but
every choice is a fixed deterministic function of the engine state, which is
the property at stake for reproducibility. -/
def lcgNext (x : Nat) : Nat := (16807 * x) % 2147483647

/-- The default seed used when the engine is constructed without arguments. -/
def lcgSeed : Nat := 1

/-- Draw of uniform_int_distribution over [0, len-1], modelled as modular
reduction of the next engine output. -/
def drawIndex (x : Nat) (len : Nat) : Nat × Nat :=
  (lcgNext x % len, lcgNext x)

/-- The draws of one loop iteration: two edge indices; the two orientation
draws are consumed only after the e1 == e2 check passes, as in the source. -/
def engineAttempt (x : Nat) (len : Nat) : Attempt × Nat :=
  let d1 := drawIndex x len
  let d2 := drawIndex d1.2 len
  if d1.1 = d2.1 then (⟨d1.1, d2.1, true, true⟩, d2.2)
  else
    let x3 := lcgNext d2.2
    let x4 := lcgNext x3
    (⟨d1.1, d2.1, decide (x3 % 2 = 0), decide (x4 % 2 = 0)⟩, x4)

/-- The randomizer's while loop driven by the engine, bounded by fuel (the
source loop is unbounded; none models running out of fuel before count swaps
are accepted, or an out-of-bounds snapshot access). -/
def engineRun [Inhabited β] (count : Nat) :
    Nat → RState α β γ → Nat → Option (RState α β γ)
  | 0, st, _ => if st.swaps < count then none else some st
  | fuel + 1, st, x =>
      if st.swaps < count then
        match swapAttempt st (engineAttempt x st.edges.length).1 with
        | some st2 => engineRun count fuel st2 (engineAttempt x st.edges.length).2
        | none => none
      else some st

/-- Translation of randomizeEndpoints as actually invoked: a fresh
default-constructed engine is created inside the call, so the whole
computation is a function of the input graph and the requested count alone. -/
def randomizeEndpoints [Inhabited β] (g : Graph α β γ) (count : Nat) (fuel : Nat) :
    Option (Graph α β γ) :=
  (engineRun count fuel (initState g) lcgSeed).map (fun st => st.g)

/-- The 4-cycle 0-1-2-3, a graph on which an accepted swap exists. -/
def cyc4 : Graph Unit Unit Unit :=
  { vprops := [(), (), (), ()],
    adjs := [[(1, ()), (3, ())], [(0, ()), (2, ())], [(1, ()), (3, ())], [(0, ()), (2, ())]],
    gprop := () }

/-- The graph obtained from cyc4 by the one accepted swap the default-seeded
engine produces: edges (0,1) and (2,3) are rewired to (1,3) and (2,0). -/
def cyc4Swapped : Graph Unit Unit Unit :=
  { vprops := [(), (), (), ()],
    adjs := [[(3, ()), (2, ())], [(2, ()), (3, ())], [(1, ()), (0, ())], [(0, ()), (1, ())]],
    gprop := () }

/-- Counterexample to C10 as stated: the randomizer constructs its engine with
the default constructor, which seeds it with the fixed default seed, so two
calls on equal input graphs with the same swap count always produce the same
output graph — here both produce exactly cyc4Swapped.  Results are
reproducible, not non-reproducible. -/
theorem c10_two_calls_same_output :
    randomizeEndpoints cyc4 1 16 = some cyc4Swapped ∧
    randomizeEndpoints cyc4 1 16 = some cyc4Swapped := by
  constructor <;> decide

/-- C10 (amended): because the randomizer constructs a default-seeded engine
on each call, its behavior is a deterministic function of the input graph and
the swap count: two calls on equal input graphs with the same swap count
produce identical output graphs. -/
theorem c10_randomize_deterministic [Inhabited β] (g1 g2 : Graph α β γ)
    (count fuel : Nat) (h : g1 = g2) :
    randomizeEndpoints g1 count fuel = randomizeEndpoints g2 count fuel := by
  rw [h]

theorem c10_randomize_deterministic_witness :
    randomizeEndpoints cyc4 1 16 = randomizeEndpoints cyc4 1 16 :=
  c10_randomize_deterministic cyc4 cyc4 1 16 rfl

theorem Graph.adj_removeEdge (g : Graph α β γ) (u v : Nat) (hu : u < g.n) (hv : v < g.n)
    (huv : u ≠ v) (w : Nat) :
    (g.removeEdge u v).adj w =
      if w = u then (g.adj u).filter (fun e => decide (e.1 ≠ v))
      else if w = v then (g.adj v).filter (fun e => decide (e.1 ≠ u))
      else g.adj w := by
  have hun : u < g.adjs.length := hu
  have hvn : v < g.adjs.length := hv
  have hlen : (removeHalf g.adjs u v).length = g.adjs.length := by simp [removeHalf]
  have h1 : ∀ x, (removeHalf g.adjs u v).getD x [] =
      if x = u then (g.adj u).filter (fun e => decide (e.1 ≠ v)) else g.adj x := by
    intro x
    rw [removeHalf, getD_set_eq]
    by_cases hx : x = u
    · subst hx
      rw [if_pos ⟨rfl, hun⟩, if_pos rfl]
      rfl
    · rw [if_neg (fun h => hx h.1.symm), if_neg hx]
      rfl
  show (removeHalf (removeHalf g.adjs u v) v u).getD w [] = _
  rw [removeHalf, getD_set_eq, hlen, h1, h1]
  by_cases hwv : w = v
  · subst hwv
    rw [if_pos ⟨rfl, hvn⟩, if_neg (Ne.symm huv), if_neg (fun h => huv h.symm), if_pos rfl]
  · rw [if_neg (fun h : v = w ∧ v < g.adjs.length => hwv h.1.symm), if_neg hwv]

theorem doSwap_adj [Inhabited β] (g : Graph α β γ) (a1 a2 b1 b2 : Nat)
    (ha1 : a1 < g.n) (ha2 : a2 < g.n) (hb1 : b1 < g.n) (hb2 : b2 < g.n)
    (h12 : a1 ≠ a2) (h1b1 : a1 ≠ b1) (h1b2 : a1 ≠ b2)
    (h2b1 : a2 ≠ b1) (h2b2 : a2 ≠ b2) (hbb : b1 ≠ b2) (w : Nat) :
    (doSwap g a1 a2 b1 b2).adj w =
      if w = a1 then (g.adj a1).filter (fun e => decide (e.1 ≠ a2)) ++ [(b2, default)]
      else if w = a2 then (g.adj a2).filter (fun e => decide (e.1 ≠ a1)) ++ [(b1, default)]
      else if w = b1 then (g.adj b1).filter (fun e => decide (e.1 ≠ b2)) ++ [(a2, default)]
      else if w = b2 then (g.adj b2).filter (fun e => decide (e.1 ≠ b1)) ++ [(a1, default)]
      else g.adj w := by
  have hg1 := g.removeEdge a1 a2
  have hn1 : (g.removeEdge a1 a2).n = g.n := Graph.n_removeEdge g a1 a2
  have hn2 : ((g.removeEdge a1 a2).removeEdge b1 b2).n = g.n := by
    rw [Graph.n_removeEdge, hn1]
  have hn3 : (((g.removeEdge a1 a2).removeEdge b1 b2).addEdge a1 b2 default).n = g.n := by
    rw [Graph.n_addEdge, hn2]
  have e1 : ∀ x, (g.removeEdge a1 a2).adj x =
      if x = a1 then (g.adj a1).filter (fun e => decide (e.1 ≠ a2))
      else if x = a2 then (g.adj a2).filter (fun e => decide (e.1 ≠ a1))
      else g.adj x := Graph.adj_removeEdge g a1 a2 ha1 ha2 h12
  have e2 : ∀ x, ((g.removeEdge a1 a2).removeEdge b1 b2).adj x =
      if x = b1 then ((g.removeEdge a1 a2).adj b1).filter (fun e => decide (e.1 ≠ b2))
      else if x = b2 then ((g.removeEdge a1 a2).adj b2).filter (fun e => decide (e.1 ≠ b1))
      else (g.removeEdge a1 a2).adj x :=
    Graph.adj_removeEdge _ b1 b2 (hn1 ▸ hb1) (hn1 ▸ hb2) hbb
  have e3 : ∀ x, (((g.removeEdge a1 a2).removeEdge b1 b2).addEdge a1 b2 default).adj x =
      if x = a1 then ((g.removeEdge a1 a2).removeEdge b1 b2).adj a1 ++ [(b2, default)]
      else if x = b2 then ((g.removeEdge a1 a2).removeEdge b1 b2).adj b2 ++ [(a1, default)]
      else ((g.removeEdge a1 a2).removeEdge b1 b2).adj x :=
    Graph.adj_addEdge _ a1 b2 default (hn2 ▸ ha1) (hn2 ▸ hb2) h1b2
  have e4 : ∀ x, (doSwap g a1 a2 b1 b2).adj x =
      if x = b1 then (((g.removeEdge a1 a2).removeEdge b1 b2).addEdge a1 b2 default).adj b1
        ++ [(a2, default)]
      else if x = a2 then (((g.removeEdge a1 a2).removeEdge b1 b2).addEdge a1 b2 default).adj a2
        ++ [(b1, default)]
      else (((g.removeEdge a1 a2).removeEdge b1 b2).addEdge a1 b2 default).adj x :=
    Graph.adj_addEdge _ b1 a2 default (hn3 ▸ hb1) (hn3 ▸ ha2) (Ne.symm h2b1)
  rw [e4]
  by_cases hwa1 : w = a1
  · rw [hwa1, if_neg h1b1, if_neg h12, e3, if_pos rfl, e2, if_neg h1b1, if_neg h1b2, e1,
      if_pos rfl, if_pos rfl]
  · by_cases hwa2 : w = a2
    · rw [hwa2, if_neg h2b1, if_pos rfl, e3, if_neg (Ne.symm h12), if_neg h2b2, e2,
        if_neg h2b1, if_neg h2b2, e1, if_neg (Ne.symm h12), if_pos rfl,
        if_neg (Ne.symm h12), if_pos rfl]
    · by_cases hwb1 : w = b1
      · rw [hwb1, if_pos rfl, e3, if_neg (Ne.symm h1b1), if_neg hbb, e2, if_pos rfl, e1,
          if_neg (Ne.symm h1b1), if_neg (Ne.symm h2b1), if_neg (Ne.symm h1b1),
          if_neg (Ne.symm h2b1), if_pos rfl]
      · by_cases hwb2 : w = b2
        · rw [hwb2, if_neg (Ne.symm hbb), if_neg (Ne.symm h2b2), e3, if_neg (Ne.symm h1b2),
            if_pos rfl, e2, if_neg (Ne.symm hbb), if_pos rfl, e1, if_neg (Ne.symm h1b2),
            if_neg (Ne.symm h2b2), if_neg (Ne.symm h1b2), if_neg (Ne.symm h2b2),
            if_neg (Ne.symm hbb), if_pos rfl]
        · rw [if_neg hwb1, if_neg hwa2, e3, if_neg hwa1, if_neg hwb2, e2, if_neg hwb1,
            if_neg hwb2, e1, if_neg hwa1, if_neg hwa2, if_neg hwa1, if_neg hwa2, if_neg hwb1,
            if_neg hwb2]

/-- Unordered equality of two endpoint pairs: the same undirected edge. -/
def unordEq (p q : Nat × Nat) : Prop :=
  (p.1 = q.1 ∧ p.2 = q.2) ∨ (p.1 = q.2 ∧ p.2 = q.1)

instance (p q : Nat × Nat) : Decidable (unordEq p q) := by
  unfold unordEq
  infer_instance

theorem unordEq_symm {p q : Nat × Nat} (h : unordEq p q) : unordEq q p := by
  rcases h with ⟨h1, h2⟩ | ⟨h1, h2⟩
  · exact Or.inl ⟨h1.symm, h2.symm⟩
  · exact Or.inr ⟨h2.symm, h1.symm⟩

theorem unordEq_trans {p q r : Nat × Nat} (h1 : unordEq p q) (h2 : unordEq q r) :
    unordEq p r := by
  rcases h1 with ⟨ha, hb⟩ | ⟨ha, hb⟩ <;> rcases h2 with ⟨hc, hd⟩ | ⟨hc, hd⟩
  · exact Or.inl ⟨ha.trans hc, hb.trans hd⟩
  · exact Or.inr ⟨ha.trans hc, hb.trans hd⟩
  · exact Or.inr ⟨ha.trans hd, hb.trans hc⟩
  · exact Or.inl ⟨ha.trans hd, hb.trans hc⟩

theorem map_fst_filter_ne (l : List (Nat × β)) (v : Nat) :
    (l.filter fun e => decide (e.1 ≠ v)).map Prod.fst =
      (l.map Prod.fst).filter fun x => decide (x ≠ v) := by
  induction l with
  | nil => rfl
  | cons e t ih =>
      by_cases h : e.1 = v
      · rw [List.filter_cons_of_neg (by simp [h]), List.map_cons,
          List.filter_cons_of_neg (by simp [h]), ih]
      · rw [List.filter_cons_of_pos (by simp [h]), List.map_cons, List.map_cons,
          List.filter_cons_of_pos (by simp [h]), ih]

theorem filter_ne_length (l : List Nat) (v : Nat) (hv : v ∈ l) (hnd : l.Nodup) :
    (l.filter fun x => decide (x ≠ v)).length + 1 = l.length := by
  induction l with
  | nil => cases hv
  | cons a t ih =>
      rw [List.nodup_cons] at hnd
      by_cases h : a = v
      · subst h
        rw [List.filter_cons_of_neg (by simp)]
        have ht : t.filter (fun x => decide (x ≠ a)) = t :=
          List.filter_eq_self.mpr fun x hx =>
            decide_eq_true fun he => hnd.1 (he ▸ hx)
        rw [ht, List.length_cons]
      · rcases List.mem_cons.mp hv with h1 | h1
        · exact absurd h1.symm h
        · rw [List.filter_cons_of_pos (by simp [h]), List.length_cons, List.length_cons,
            ← ih h1 hnd.2]

theorem nodup_append_singleton (l : List Nat) (x : Nat) (hnd : l.Nodup) (hx : x ∉ l) :
    (l ++ [x]).Nodup := by
  rw [List.nodup_append]
  refine ⟨hnd, List.nodup_singleton x, ?_⟩
  intro y hy hmem
  rw [List.mem_singleton] at hmem
  exact hx (hmem ▸ hy)

theorem mem_swapped (l : List Nat) (v x y : Nat) :
    (y ∈ (l.filter fun z => decide (z ≠ v)) ++ [x]) ↔ ((y ∈ l ∧ y ≠ v) ∨ y = x) := by
  rw [List.mem_append, List.mem_filter, List.mem_singleton]
  simp only [decide_eq_true_eq]

theorem mem_iff_getD {δ : Type} (l : List δ) (d : δ) (x : δ) :
    x ∈ l ↔ ∃ i, i < l.length ∧ l.getD i d = x := by
  rw [List.mem_iff_getElem]
  constructor
  · rintro ⟨i, hi, hx⟩
    exact ⟨i, hi, by rw [List.getD_eq_getElem l d hi]; exact hx⟩
  · rintro ⟨i, hi, hx⟩
    exact ⟨i, hi, by rw [← List.getD_eq_getElem l d hi]; exact hx⟩

theorem degree_eq_nbrs_length (g : Graph α β γ) (u : Nat) :
    g.degree u = (g.nbrs u).length := (List.length_map _ _).symm

theorem is_adjacent_iff (g : Graph α β γ) (u v : Nat) :
    is_adjacent g u v = true ↔ v ∈ g.nbrs u := by
  rw [is_adjacent, List.any_eq_true]
  constructor
  · rintro ⟨e, he, hd⟩
    exact List.mem_map.mpr ⟨e, he, by simpa using hd⟩
  · intro hv
    obtain ⟨e, he, hfst⟩ := List.mem_map.mp hv
    exact ⟨e, he, by simp [hfst]⟩

theorem doSwap_nbrs [Inhabited β] (g : Graph α β γ) (a1 a2 b1 b2 : Nat)
    (ha1 : a1 < g.n) (ha2 : a2 < g.n) (hb1 : b1 < g.n) (hb2 : b2 < g.n)
    (h12 : a1 ≠ a2) (h1b1 : a1 ≠ b1) (h1b2 : a1 ≠ b2)
    (h2b1 : a2 ≠ b1) (h2b2 : a2 ≠ b2) (hbb : b1 ≠ b2) (w : Nat) :
    (doSwap g a1 a2 b1 b2).nbrs w =
      if w = a1 then ((g.nbrs a1).filter fun x => decide (x ≠ a2)) ++ [b2]
      else if w = a2 then ((g.nbrs a2).filter fun x => decide (x ≠ a1)) ++ [b1]
      else if w = b1 then ((g.nbrs b1).filter fun x => decide (x ≠ b2)) ++ [a2]
      else if w = b2 then ((g.nbrs b2).filter fun x => decide (x ≠ b1)) ++ [a1]
      else g.nbrs w := by
  unfold Graph.nbrs
  rw [doSwap_adj g a1 a2 b1 b2 ha1 ha2 hb1 hb2 h12 h1b1 h1b2 h2b1 h2b2 hbb w]
  by_cases hw1 : w = a1
  · rw [if_pos hw1, if_pos hw1, List.map_append, map_fst_filter_ne]
    rfl
  · rw [if_neg hw1, if_neg hw1]
    by_cases hw2 : w = a2
    · rw [if_pos hw2, if_pos hw2, List.map_append, map_fst_filter_ne]
      rfl
    · rw [if_neg hw2, if_neg hw2]
      by_cases hw3 : w = b1
      · rw [if_pos hw3, if_pos hw3, List.map_append, map_fst_filter_ne]
        rfl
      · rw [if_neg hw3, if_neg hw3]
        by_cases hw4 : w = b2
        · rw [if_pos hw4, if_pos hw4, List.map_append, map_fst_filter_ne]
          rfl
        · rw [if_neg hw4, if_neg hw4]

/-- The loop invariant of the randomizer, relative to the input graph g0: the
graph stays loop-free and duplicate-free with symmetric adjacency, unchanged
vertex count and unchanged degrees, and the edge snapshot keeps its length and
stays a list of pairwise-distinct current edges of the graph. -/
structure RInv (g0 : Graph α β γ) (st : RState α β γ) : Prop where
  hn : st.g.n = g0.n
  range : ∀ u, ∀ v ∈ st.g.nbrs u, v < st.g.n
  deg : ∀ u, st.g.degree u = g0.degree u
  symm : ∀ u v, v ∈ st.g.nbrs u → u ∈ st.g.nbrs v
  loopfree : ∀ u, u ∉ st.g.nbrs u
  nodup : ∀ u, (st.g.nbrs u).Nodup
  elen : st.edges.length = (get_edges g0).length
  sync : ∀ p ∈ st.edges, p.1 ≠ p.2 ∧ p.2 ∈ st.g.nbrs p.1
  dist : ∀ i j, i < st.edges.length → j < st.edges.length → i ≠ j →
    ¬ unordEq (st.edges.getD i (0, 0)) (st.edges.getD j (0, 0))

theorem orient_facts (g : Graph α β γ)
    (hsy : ∀ u v, v ∈ g.nbrs u → u ∈ g.nbrs v)
    (p : Nat × Nat) (x y : Nat)
    (hor : (x = p.1 ∧ y = p.2) ∨ (x = p.2 ∧ y = p.1))
    (hne : p.1 ≠ p.2) (hmem : p.2 ∈ g.nbrs p.1) :
    x ≠ y ∧ y ∈ g.nbrs x ∧ x ∈ g.nbrs y ∧ unordEq p (x, y) := by
  rcases hor with ⟨hx, hy⟩ | ⟨hx, hy⟩
  · subst hx
    subst hy
    exact ⟨hne, hmem, hsy _ _ hmem, Or.inl ⟨rfl, rfl⟩⟩
  · subst hx
    subst hy
    exact ⟨hne.symm, hsy _ _ hmem, hmem, Or.inr ⟨rfl, rfl⟩⟩

theorem rinv_init [DecidableEq β] (g : Graph α β γ) (hg : g.WF) (hs : g.Simple) :
    RInv g (initState g) := by
  have hloop : ∀ u, u ∉ g.nbrs u := by
    intro u hu
    by_cases h : u < g.n
    · exact hs.1 u h hu
    · rw [Graph.nbrs, g.adj_eq_nil u (Nat.le_of_not_lt h)] at hu
      cases hu
  have hnd : ∀ u, (g.nbrs u).Nodup := by
    intro u
    by_cases h : u < g.n
    · exact hs.2 u h
    · rw [Graph.nbrs, g.adj_eq_nil u (Nat.le_of_not_lt h)]
      exact List.nodup_nil
  have hsync : ∀ p ∈ get_edges g, p.1 ≠ p.2 ∧ p.2 ∈ g.nbrs p.1 := by
    intro p hp
    obtain ⟨e, he, hpe⟩ := List.mem_map.mp hp
    obtain ⟨hlt, hle, hadj⟩ := mem_edgesP g e he
    rw [← hpe]
    have hmm : e.2.1 ∈ g.nbrs e.1 := List.mem_map.mpr ⟨e.2, hadj, rfl⟩
    refine ⟨?_, hmm⟩
    intro hcon
    dsimp only at hcon
    rw [← hcon] at hmm
    exact hloop e.1 hmm
  have hcanon : ∀ p ∈ get_edges g, p.1 ≤ p.2 := by
    intro p hp
    obtain ⟨e, he, hpe⟩ := List.mem_map.mp hp
    rw [← hpe]
    exact (mem_edgesP g e he).2.1
  have hnodup : (get_edges g).Nodup := by
    rw [List.nodup_iff_count_le_one]
    intro p
    rcases p with ⟨u, v⟩
    rw [← count_eq_of_lawful (u, v) (get_edges g), get_edges_count]
    by_cases huv : u ≤ v
    · rw [if_pos huv, ← emult_eq_countP]
      show (g.nbrs u).count v ≤ 1
      rw [count_eq_of_lawful v (g.nbrs u)]
      exact List.nodup_iff_count_le_one.mp (hnd u) v
    · rw [if_neg huv]
      exact Nat.zero_le 1
  have hdist : ∀ i j, i < (get_edges g).length → j < (get_edges g).length → i ≠ j →
      ¬ unordEq ((get_edges g).getD i (0, 0)) ((get_edges g).getD j (0, 0)) := by
    intro i j hi hj hij hcon
    have hpi : (get_edges g).getD i (0, 0) ∈ get_edges g :=
      (mem_iff_getD _ _ _).mpr ⟨i, hi, rfl⟩
    have hpj : (get_edges g).getD j (0, 0) ∈ get_edges g :=
      (mem_iff_getD _ _ _).mpr ⟨j, hj, rfl⟩
    have hci := hcanon _ hpi
    have hcj := hcanon _ hpj
    have heq : (get_edges g).getD i (0, 0) = (get_edges g).getD j (0, 0) := by
      rcases hcon with ⟨hs1, hs2⟩ | ⟨hs1, hs2⟩
      · exact Prod.ext_iff.mpr ⟨hs1, hs2⟩
      · exact Prod.ext_iff.mpr ⟨by omega, by omega⟩
    rw [List.getD_eq_getElem _ _ hi, List.getD_eq_getElem _ _ hj] at heq
    exact hij (hnodup.getElem_inj_iff.mp heq)
  exact ⟨rfl, hg.nbrs_lt, fun u => rfl, hg.nbrs_symm, hloop, hnd, rfl, hsync, hdist⟩

theorem doSwap_rinv [Inhabited β] (g0 : Graph α β γ) (st : RState α β γ)
    (hinv : RInv g0 st) (e1 e2 : Nat) (p1 p2 : Nat × Nat) (a1 a2 b1 b2 : Nat)
    (h1 : st.edges[e1]? = some p1) (h2 : st.edges[e2]? = some p2)
    (hee : e1 ≠ e2)
    (hor1 : (a1 = p1.1 ∧ a2 = p1.2) ∨ (a1 = p1.2 ∧ a2 = p1.1))
    (hor2 : (b1 = p2.1 ∧ b2 = p2.2) ∨ (b1 = p2.2 ∧ b2 = p2.1))
    (hg1 : ¬(a1 = b1 ∨ a1 = b2 ∨ a2 = b1 ∨ a2 = b2))
    (hna1 : ¬ is_adjacent st.g a1 b2 = true) (hna2 : ¬ is_adjacent st.g b1 a2 = true) :
    RInv g0 { g := doSwap st.g a1 a2 b1 b2,
              edges := (st.edges.set e1 (a1, b2)).set e2 (b1, a2),
              swaps := st.swaps + 1 } := by
  push_neg at hg1
  obtain ⟨h1b1, h1b2, h2b1, h2b2⟩ := hg1
  have hnadj1 : b2 ∉ st.g.nbrs a1 := fun hm => hna1 ((is_adjacent_iff st.g a1 b2).mpr hm)
  have hnadj2 : a2 ∉ st.g.nbrs b1 := fun hm => hna2 ((is_adjacent_iff st.g b1 a2).mpr hm)
  have he1lt : e1 < st.edges.length := (List.getElem?_eq_some.mp h1).1
  have he2lt : e2 < st.edges.length := (List.getElem?_eq_some.mp h2).1
  have hp1get : st.edges.getD e1 (0, 0) = p1 := by
    rw [List.getD_eq_getElem _ _ he1lt]
    exact (List.getElem?_eq_some.mp h1).2
  have hp2get : st.edges.getD e2 (0, 0) = p2 := by
    rw [List.getD_eq_getElem _ _ he2lt]
    exact (List.getElem?_eq_some.mp h2).2
  have hp1mem : p1 ∈ st.edges := List.getElem?_mem h1
  have hp2mem : p2 ∈ st.edges := List.getElem?_mem h2
  obtain ⟨hp1ne, hp1adj⟩ := hinv.sync p1 hp1mem
  obtain ⟨hp2ne, hp2adj⟩ := hinv.sync p2 hp2mem
  obtain ⟨h12, hm12, hm21, hu1⟩ := orient_facts st.g hinv.symm p1 a1 a2 hor1 hp1ne hp1adj
  obtain ⟨hbb, hmb12, hmb21, hu2⟩ := orient_facts st.g hinv.symm p2 b1 b2 hor2 hp2ne hp2adj
  have ha1 : a1 < st.g.n := hinv.range a2 a1 hm21
  have ha2 : a2 < st.g.n := hinv.range a1 a2 hm12
  have hb1 : b1 < st.g.n := hinv.range b2 b1 hmb21
  have hb2 : b2 < st.g.n := hinv.range b1 b2 hmb12
  have hnbrs := doSwap_nbrs st.g a1 a2 b1 b2 ha1 ha2 hb1 hb2 h12 h1b1 h1b2 h2b1 h2b2 hbb
  have hN1 : (doSwap st.g a1 a2 b1 b2).nbrs a1 =
      ((st.g.nbrs a1).filter fun x => decide (x ≠ a2)) ++ [b2] := by
    rw [hnbrs a1, if_pos rfl]
  have hN2 : (doSwap st.g a1 a2 b1 b2).nbrs a2 =
      ((st.g.nbrs a2).filter fun x => decide (x ≠ a1)) ++ [b1] := by
    rw [hnbrs a2, if_neg (Ne.symm h12), if_pos rfl]
  have hN3 : (doSwap st.g a1 a2 b1 b2).nbrs b1 =
      ((st.g.nbrs b1).filter fun x => decide (x ≠ b2)) ++ [a2] := by
    rw [hnbrs b1, if_neg (Ne.symm h1b1), if_neg (Ne.symm h2b1), if_pos rfl]
  have hN4 : (doSwap st.g a1 a2 b1 b2).nbrs b2 =
      ((st.g.nbrs b2).filter fun x => decide (x ≠ b1)) ++ [a1] := by
    rw [hnbrs b2, if_neg (Ne.symm h1b2), if_neg (Ne.symm h2b2), if_neg (Ne.symm hbb),
      if_pos rfl]
  have hN0 : ∀ w, w ≠ a1 → w ≠ a2 → w ≠ b1 → w ≠ b2 →
      (doSwap st.g a1 a2 b1 b2).nbrs w = st.g.nbrs w := by
    intro w k1 k2 k3 k4
    rw [hnbrs w, if_neg k1, if_neg k2, if_neg k3, if_neg k4]
  have hG'n : (doSwap st.g a1 a2 b1 b2).n = st.g.n := (doSwap_frame st.g a1 a2 b1 b2).2.2
  have hrange' : ∀ u, ∀ v ∈ (doSwap st.g a1 a2 b1 b2).nbrs u,
      v < (doSwap st.g a1 a2 b1 b2).n := by
    intro u v hv
    rw [hG'n]
    by_cases k1 : u = a1
    · rw [k1, hN1, mem_swapped] at hv
      rcases hv with ⟨hm, _⟩ | hx
      · exact hinv.range a1 v hm
      · rw [hx]
        exact hb2
    · by_cases k2 : u = a2
      · rw [k2, hN2, mem_swapped] at hv
        rcases hv with ⟨hm, _⟩ | hx
        · exact hinv.range a2 v hm
        · rw [hx]
          exact hb1
      · by_cases k3 : u = b1
        · rw [k3, hN3, mem_swapped] at hv
          rcases hv with ⟨hm, _⟩ | hx
          · exact hinv.range b1 v hm
          · rw [hx]
            exact ha2
        · by_cases k4 : u = b2
          · rw [k4, hN4, mem_swapped] at hv
            rcases hv with ⟨hm, _⟩ | hx
            · exact hinv.range b2 v hm
            · rw [hx]
              exact ha1
          · rw [hN0 u k1 k2 k3 k4] at hv
            exact hinv.range u v hv
  have hdeg' : ∀ u, (doSwap st.g a1 a2 b1 b2).degree u = g0.degree u := by
    intro u
    by_cases k1 : u = a1
    · rw [k1, degree_eq_nbrs_length, hN1, List.length_append, List.length_singleton,
        filter_ne_length (st.g.nbrs a1) a2 hm12 (hinv.nodup a1), ← degree_eq_nbrs_length]
      exact hinv.deg a1
    · by_cases k2 : u = a2
      · rw [k2, degree_eq_nbrs_length, hN2, List.length_append, List.length_singleton,
          filter_ne_length (st.g.nbrs a2) a1 hm21 (hinv.nodup a2), ← degree_eq_nbrs_length]
        exact hinv.deg a2
      · by_cases k3 : u = b1
        · rw [k3, degree_eq_nbrs_length, hN3, List.length_append, List.length_singleton,
            filter_ne_length (st.g.nbrs b1) b2 hmb12 (hinv.nodup b1), ← degree_eq_nbrs_length]
          exact hinv.deg b1
        · by_cases k4 : u = b2
          · rw [k4, degree_eq_nbrs_length, hN4, List.length_append, List.length_singleton,
              filter_ne_length (st.g.nbrs b2) b1 hmb21 (hinv.nodup b2),
              ← degree_eq_nbrs_length]
            exact hinv.deg b2
          · rw [degree_eq_nbrs_length, hN0 u k1 k2 k3 k4, ← degree_eq_nbrs_length]
            exact hinv.deg u
  have hsymm' : ∀ u v, v ∈ (doSwap st.g a1 a2 b1 b2).nbrs u →
      u ∈ (doSwap st.g a1 a2 b1 b2).nbrs v := by
    intro u v hv
    by_cases k1 : u = a1
    · subst k1
      rw [hN1, mem_swapped] at hv
      rcases hv with ⟨hvm, hvne⟩ | hvx
      · have hmv : u ∈ st.g.nbrs v := hinv.symm u v hvm
        by_cases j1 : v = u
        · exact absurd (j1 ▸ hvm) (hinv.loopfree u)
        · by_cases j3 : v = b1
          · subst j3
            rw [hN3, mem_swapped]
            exact Or.inl ⟨hmv, h1b2⟩
          · by_cases j4 : v = b2
            · exact absurd (j4 ▸ hvm) hnadj1
            · rw [hN0 v j1 hvne j3 j4]
              exact hmv
      · subst hvx
        rw [hN4, mem_swapped]
        exact Or.inr rfl
    · by_cases k2 : u = a2
      · subst k2
        rw [hN2, mem_swapped] at hv
        rcases hv with ⟨hvm, hvne⟩ | hvx
        · have hmv : u ∈ st.g.nbrs v := hinv.symm u v hvm
          by_cases j2 : v = u
          · exact absurd (j2 ▸ hvm) (hinv.loopfree u)
          · by_cases j3 : v = b1
            · exact absurd (j3 ▸ hmv) hnadj2
            · by_cases j4 : v = b2
              · subst j4
                rw [hN4, mem_swapped]
                exact Or.inl ⟨hmv, h2b1⟩
              · rw [hN0 v hvne j2 j3 j4]
                exact hmv
        · subst hvx
          rw [hN3, mem_swapped]
          exact Or.inr rfl
      · by_cases k3 : u = b1
        · subst k3
          rw [hN3, mem_swapped] at hv
          rcases hv with ⟨hvm, hvne⟩ | hvx
          · have hmv : u ∈ st.g.nbrs v := hinv.symm u v hvm
            by_cases j1 : v = a1
            · subst j1
              rw [hN1, mem_swapped]
              exact Or.inl ⟨hmv, Ne.symm h2b1⟩
            · by_cases j2 : v = a2
              · exact absurd (j2 ▸ hvm) hnadj2
              · by_cases j3 : v = u
                · exact absurd (j3 ▸ hvm) (hinv.loopfree u)
                · rw [hN0 v j1 j2 j3 hvne]
                  exact hmv
          · subst hvx
            rw [hN2, mem_swapped]
            exact Or.inr rfl
        · by_cases k4 : u = b2
          · subst k4
            rw [hN4, mem_swapped] at hv
            rcases hv with ⟨hvm, hvne⟩ | hvx
            · have hmv : u ∈ st.g.nbrs v := hinv.symm u v hvm
              by_cases j1 : v = a1
              · exact absurd (j1 ▸ hmv) hnadj1
              · by_cases j2 : v = a2
                · subst j2
                  rw [hN2, mem_swapped]
                  exact Or.inl ⟨hmv, Ne.symm h1b2⟩
                · by_cases j4 : v = u
                  · exact absurd (j4 ▸ hvm) (hinv.loopfree u)
                  · rw [hN0 v j1 j2 hvne j4]
                    exact hmv
            · subst hvx
              rw [hN1, mem_swapped]
              exact Or.inr rfl
          · rw [hN0 u k1 k2 k3 k4] at hv
            have hmv : u ∈ st.g.nbrs v := hinv.symm u v hv
            by_cases j1 : v = a1
            · subst j1
              rw [hN1, mem_swapped]
              exact Or.inl ⟨hmv, k2⟩
            · by_cases j2 : v = a2
              · subst j2
                rw [hN2, mem_swapped]
                exact Or.inl ⟨hmv, k1⟩
              · by_cases j3 : v = b1
                · subst j3
                  rw [hN3, mem_swapped]
                  exact Or.inl ⟨hmv, k4⟩
                · by_cases j4 : v = b2
                  · subst j4
                    rw [hN4, mem_swapped]
                    exact Or.inl ⟨hmv, k3⟩
                  · rw [hN0 v j1 j2 j3 j4]
                    exact hmv
  have hloop' : ∀ u, u ∉ (doSwap st.g a1 a2 b1 b2).nbrs u := by
    intro u hu
    by_cases k1 : u = a1
    · rw [k1, hN1, mem_swapped] at hu
      rcases hu with ⟨hm, _⟩ | hx
      · exact hinv.loopfree a1 hm
      · exact h1b2 hx
    · by_cases k2 : u = a2
      · rw [k2, hN2, mem_swapped] at hu
        rcases hu with ⟨hm, _⟩ | hx
        · exact hinv.loopfree a2 hm
        · exact h2b1 hx
      · by_cases k3 : u = b1
        · rw [k3, hN3, mem_swapped] at hu
          rcases hu with ⟨hm, _⟩ | hx
          · exact hinv.loopfree b1 hm
          · exact h2b1 hx.symm
        · by_cases k4 : u = b2
          · rw [k4, hN4, mem_swapped] at hu
            rcases hu with ⟨hm, _⟩ | hx
            · exact hinv.loopfree b2 hm
            · exact h1b2 hx.symm
          · rw [hN0 u k1 k2 k3 k4] at hu
            exact hinv.loopfree u hu
  have hnd' : ∀ u, ((doSwap st.g a1 a2 b1 b2).nbrs u).Nodup := by
    intro u
    by_cases k1 : u = a1
    · rw [k1, hN1]
      refine nodup_append_singleton _ _ ((hinv.nodup a1).filter _) ?_
      intro hmem
      exact hnadj1 (List.mem_of_mem_filter hmem)
    · by_cases k2 : u = a2
      · rw [k2, hN2]
        refine nodup_append_singleton _ _ ((hinv.nodup a2).filter _) ?_
        intro hmem
        exact hnadj2 (hinv.symm a2 b1 (List.mem_of_mem_filter hmem))
      · by_cases k3 : u = b1
        · rw [k3, hN3]
          refine nodup_append_singleton _ _ ((hinv.nodup b1).filter _) ?_
          intro hmem
          exact hnadj2 (List.mem_of_mem_filter hmem)
        · by_cases k4 : u = b2
          · rw [k4, hN4]
            refine nodup_append_singleton _ _ ((hinv.nodup b2).filter _) ?_
            intro hmem
            exact hnadj1 (hinv.symm b2 a1 (List.mem_of_mem_filter hmem))
          · rw [hN0 u k1 k2 k3 k4]
            exact hinv.nodup u
  have helen' : ((st.edges.set e1 (a1, b2)).set e2 (b1, a2)).length = (get_edges g0).length := by
    rw [List.length_set, List.length_set]
    exact hinv.elen
  have hE : ∀ i, ((st.edges.set e1 (a1, b2)).set e2 (b1, a2)).getD i (0, 0) =
      if i = e2 then (b1, a2) else if i = e1 then (a1, b2) else st.edges.getD i (0, 0) := by
    intro i
    rw [getD_set_eq, getD_set_eq]
    by_cases k2 : i = e2
    · rw [if_pos ⟨k2.symm, by rw [List.length_set]; exact he2lt⟩, if_pos k2]
    · rw [if_neg (fun hc => k2 hc.1.symm), if_neg k2]
      by_cases k1 : i = e1
      · rw [if_pos ⟨k1.symm, he1lt⟩, if_pos k1]
      · rw [if_neg (fun hc => k1 hc.1.symm), if_neg k1]
  have hsync' : ∀ p ∈ (st.edges.set e1 (a1, b2)).set e2 (b1, a2),
      p.1 ≠ p.2 ∧ p.2 ∈ (doSwap st.g a1 a2 b1 b2).nbrs p.1 := by
    intro p hp
    obtain ⟨i, hi, hpi⟩ := (mem_iff_getD _ (0, 0) p).mp hp
    rw [hE i] at hpi
    by_cases k2 : i = e2
    · rw [if_pos k2] at hpi
      rw [← hpi]
      refine ⟨Ne.symm h2b1, ?_⟩
      rw [hN3, mem_swapped]
      exact Or.inr rfl
    · rw [if_neg k2] at hpi
      by_cases k1 : i = e1
      · rw [if_pos k1] at hpi
        rw [← hpi]
        refine ⟨h1b2, ?_⟩
        rw [hN1, mem_swapped]
        exact Or.inr rfl
      · rw [if_neg k1] at hpi
        have hi' : i < st.edges.length := by
          rw [List.length_set, List.length_set] at hi
          exact hi
        have hpmem : p ∈ st.edges := (mem_iff_getD st.edges (0, 0) p).mpr ⟨i, hi', hpi⟩
        obtain ⟨hpne, hpadj⟩ := hinv.sync p hpmem
        refine ⟨hpne, ?_⟩
        have hdist1 : ¬ unordEq p p1 := by
          have hd := hinv.dist i e1 hi' he1lt k1
          rw [hpi, hp1get] at hd
          exact hd
        have hdist2 : ¬ unordEq p p2 := by
          have hd := hinv.dist i e2 hi' he2lt k2
          rw [hpi, hp2get] at hd
          exact hd
        by_cases q1 : p.1 = a1
        · rw [q1, hN1, mem_swapped]
          refine Or.inl ⟨q1 ▸ hpadj, ?_⟩
          intro q2
          exact hdist1 (unordEq_trans (Or.inl ⟨q1, q2⟩) (unordEq_symm hu1))
        · by_cases q2 : p.1 = a2
          · rw [q2, hN2, mem_swapped]
            refine Or.inl ⟨q2 ▸ hpadj, ?_⟩
            intro qq
            exact hdist1 (unordEq_trans (Or.inr ⟨q2, qq⟩) (unordEq_symm hu1))
          · by_cases q3 : p.1 = b1
            · rw [q3, hN3, mem_swapped]
              refine Or.inl ⟨q3 ▸ hpadj, ?_⟩
              intro qq
              exact hdist2 (unordEq_trans (Or.inl ⟨q3, qq⟩) (unordEq_symm hu2))
            · by_cases q4 : p.1 = b2
              · rw [q4, hN4, mem_swapped]
                refine Or.inl ⟨q4 ▸ hpadj, ?_⟩
                intro qq
                exact hdist2 (unordEq_trans (Or.inr ⟨q4, qq⟩) (unordEq_symm hu2))
              · rw [hN0 p.1 q1 q2 q3 q4]
                exact hpadj
  have hold1 : ∀ q ∈ st.edges, ¬ unordEq (a1, b2) q := by
    intro q hq hcon
    obtain ⟨hqne, hqadj⟩ := hinv.sync q hq
    rcases hcon with ⟨hs1, hs2⟩ | ⟨hs1, hs2⟩
    · rw [← hs1, ← hs2] at hqadj
      exact hnadj1 hqadj
    · rw [← hs2, ← hs1] at hqadj
      exact hnadj1 (hinv.symm b2 a1 hqadj)
  have hold2 : ∀ q ∈ st.edges, ¬ unordEq (b1, a2) q := by
    intro q hq hcon
    obtain ⟨hqne, hqadj⟩ := hinv.sync q hq
    rcases hcon with ⟨hs1, hs2⟩ | ⟨hs1, hs2⟩
    · rw [← hs1, ← hs2] at hqadj
      exact hnadj2 hqadj
    · rw [← hs2, ← hs1] at hqadj
      exact hnadj2 (hinv.symm a2 b1 hqadj)
  have hA : ¬ unordEq (a1, b2) (b1, a2) := by
    rintro (⟨hs1, hs2⟩ | ⟨hs1, hs2⟩)
    · exact h1b1 hs1
    · exact h12 hs1
  have holdmem : ∀ k, k < st.edges.length → st.edges.getD k (0, 0) ∈ st.edges :=
    fun k hk => (mem_iff_getD st.edges (0, 0) _).mpr ⟨k, hk, rfl⟩
  have hdist' : ∀ i j, i < ((st.edges.set e1 (a1, b2)).set e2 (b1, a2)).length →
      j < ((st.edges.set e1 (a1, b2)).set e2 (b1, a2)).length → i ≠ j →
      ¬ unordEq (((st.edges.set e1 (a1, b2)).set e2 (b1, a2)).getD i (0, 0))
        (((st.edges.set e1 (a1, b2)).set e2 (b1, a2)).getD j (0, 0)) := by
    intro i j hi hj hij hcon
    rw [hE i, hE j] at hcon
    have hi' : i < st.edges.length := by
      rw [List.length_set, List.length_set] at hi
      exact hi
    have hj' : j < st.edges.length := by
      rw [List.length_set, List.length_set] at hj
      exact hj
    by_cases ki2 : i = e2
    · rw [if_pos ki2] at hcon
      by_cases kj2 : j = e2
      · exact hij (ki2.trans kj2.symm)
      · rw [if_neg kj2] at hcon
        by_cases kj1 : j = e1
        · rw [if_pos kj1] at hcon
          exact hA (unordEq_symm hcon)
        · rw [if_neg kj1] at hcon
          exact hold2 _ (holdmem j hj') hcon
    · rw [if_neg ki2] at hcon
      by_cases ki1 : i = e1
      · rw [if_pos ki1] at hcon
        by_cases kj2 : j = e2
        · rw [if_pos kj2] at hcon
          exact hA hcon
        · rw [if_neg kj2] at hcon
          by_cases kj1 : j = e1
          · exact hij (ki1.trans kj1.symm)
          · rw [if_neg kj1] at hcon
            exact hold1 _ (holdmem j hj') hcon
      · rw [if_neg ki1] at hcon
        by_cases kj2 : j = e2
        · rw [if_pos kj2] at hcon
          exact hold2 _ (holdmem i hi') (unordEq_symm hcon)
        · rw [if_neg kj2] at hcon
          by_cases kj1 : j = e1
          · rw [if_pos kj1] at hcon
            exact hold1 _ (holdmem i hi') (unordEq_symm hcon)
          · rw [if_neg kj1] at hcon
            exact hinv.dist i j hi' hj' hij hcon
  exact ⟨hG'n.trans hinv.hn, hrange', hdeg', hsymm', hloop', hnd', helen', hsync', hdist'⟩

theorem swapAttempt_inv [Inhabited β] (g0 : Graph α β γ) (st st2 : RState α β γ)
    (a : Attempt) (hinv : RInv g0 st) (h : swapAttempt st a = some st2) :
    RInv g0 st2 := by
  rw [swapAttempt] at h
  by_cases he : a.e1 = a.e2
  · rw [if_pos he] at h
    rw [← Option.some.inj h]
    exact hinv
  · rw [if_neg he] at h
    rcases h1 : st.edges[a.e1]? with _ | p1 <;> rcases h2 : st.edges[a.e2]? with _ | p2 <;>
      rw [h1, h2] at h
    · cases h
    · cases h
    · cases h
    · dsimp only at h
      by_cases hg1 : (if a.o1 = true then p1.1 else p1.2) = (if a.o2 = true then p2.1 else p2.2) ∨
          (if a.o1 = true then p1.1 else p1.2) = (if a.o2 = true then p2.2 else p2.1) ∨
          (if a.o1 = true then p1.2 else p1.1) = (if a.o2 = true then p2.1 else p2.2) ∨
          (if a.o1 = true then p1.2 else p1.1) = (if a.o2 = true then p2.2 else p2.1)
      · rw [if_pos hg1] at h
        rw [← Option.some.inj h]
        exact hinv
      · rw [if_neg hg1] at h
        by_cases hg2 : is_adjacent st.g (if a.o1 = true then p1.1 else p1.2)
              (if a.o2 = true then p2.2 else p2.1) = true ∨
            is_adjacent st.g (if a.o2 = true then p2.1 else p2.2)
              (if a.o1 = true then p1.2 else p1.1) = true
        · rw [if_pos hg2] at h
          rw [← Option.some.inj h]
          exact hinv
        · rw [if_neg hg2] at h
          rw [← Option.some.inj h]
          refine doSwap_rinv g0 st hinv a.e1 a.e2 p1 p2 _ _ _ _ h1 h2 he ?_ ?_ hg1
            (fun hc => hg2 (Or.inl hc)) (fun hc => hg2 (Or.inr hc))
          · by_cases ho : a.o1 = true
            · exact Or.inl ⟨if_pos ho, if_pos ho⟩
            · exact Or.inr ⟨if_neg ho, if_neg ho⟩
          · by_cases ho : a.o2 = true
            · exact Or.inl ⟨if_pos ho, if_pos ho⟩
            · exact Or.inr ⟨if_neg ho, if_neg ho⟩

theorem randomizeRun_inv [Inhabited β] (g0 : Graph α β γ) (count : Nat) (l : List Attempt) :
    ∀ st st2 : RState α β γ, RInv g0 st → randomizeRun count st l = some st2 →
    RInv g0 st2 := by
  induction l with
  | nil =>
      intro st st2 hinv h
      rw [randomizeRun] at h
      rw [← Option.some.inj h]
      exact hinv
  | cons a rest ih =>
      intro st st2 hinv h
      rw [randomizeRun] at h
      by_cases hc : st.swaps < count
      · rw [if_pos hc] at h
        rcases hs : swapAttempt st a with _ | stm <;> rw [hs] at h
        · cases h
        · exact ih stm st2 (swapAttempt_inv g0 st stm a hinv hs) h
      · rw [if_neg hc] at h
        rw [← Option.some.inj h]
        exact hinv

theorem sum_map_range_eq (f : Nat → Nat) (n : Nat) :
    ((List.range n).map f).sum = ∑ i in Finset.range n, f i := by
  induction n with
  | zero => simp
  | succ m ih =>
      rw [List.range_succ, List.map_append, List.sum_append, Finset.sum_range_succ, ih]
      simp

theorem count_eq_one_of_nodup_mem (l : List Nat) (a : Nat) (hnd : l.Nodup) (ha : a ∈ l) :
    l.count a = 1 := by
  have h1 : l.count a ≤ 1 := by
    rw [count_eq_of_lawful a l]
    exact List.nodup_iff_count_le_one.mp hnd a
  have h2 : 0 < l.count a := List.count_pos_iff.mpr ha
  omega

theorem nbrs_count_symm (g : Graph α β γ)
    (hsym : ∀ u v, v ∈ g.nbrs u → u ∈ g.nbrs v)
    (hnd : ∀ u, (g.nbrs u).Nodup) (u v : Nat) :
    (g.nbrs u).count v = (g.nbrs v).count u := by
  by_cases h : v ∈ g.nbrs u
  · rw [count_eq_one_of_nodup_mem _ _ (hnd u) h,
      count_eq_one_of_nodup_mem _ _ (hnd v) (hsym u v h)]
  · rw [List.count_eq_zero.mpr h, List.count_eq_zero.mpr (fun hm => h (hsym v u hm))]

theorem countP_eq_sum_count (n : Nat) (l : List Nat) (h : ∀ x ∈ l, x < n) (q : Nat → Bool) :
    l.countP q = ∑ v in Finset.range n, if q v = true then l.count v else 0 := by
  induction l with
  | nil => simp
  | cons a t ih =>
      have ha : a ∈ Finset.range n := Finset.mem_range.mpr (h a (List.mem_cons_self a t))
      have ht : ∀ x ∈ t, x < n := fun x hx => h x (List.mem_cons_of_mem a hx)
      rw [List.countP_cons, ih ht]
      have hsplit : ∀ v, (if q v = true then (a :: t).count v else 0) =
          (if q v = true then t.count v else 0) +
          (if v = a then (if q v = true then 1 else 0) else 0) := by
        intro v
        by_cases hv : v = a
        · subst hv
          by_cases hq : q v = true
          · simp [hq, List.count_cons_self]
          · simp [hq]
        · by_cases hq : q v = true
          · simp [hq, hv, List.count_cons_of_ne hv]
          · simp [hq, hv]
      rw [Finset.sum_congr rfl fun v _ => hsplit v, Finset.sum_add_distrib,
        Finset.sum_ite_eq' (Finset.range n) a fun v => if q v = true then 1 else 0,
        if_pos ha]

theorem handshake (g : Graph α β γ)
    (hrange : ∀ u, ∀ v ∈ g.nbrs u, v < g.n)
    (hsym : ∀ u v, v ∈ g.nbrs u → u ∈ g.nbrs v)
    (hloop : ∀ u, u ∉ g.nbrs u)
    (hnd : ∀ u, (g.nbrs u).Nodup) :
    2 * (get_edges g).length = ∑ u in Finset.range g.n, g.degree u := by
  have hlen : (get_edges g).length =
      ∑ u in Finset.range g.n, (g.nbrs u).countP (fun x => decide (u < x)) := by
    rw [get_edges, List.length_map, Graph.edgesP, List.length_flatten, List.map_map]
    have hblock : ∀ u, (List.length ∘ fun u =>
        ((g.adj u).filter fun e => decide (u ≤ e.1)).map fun e => (u, e.1, e.2)) u =
        (g.nbrs u).countP fun x => decide (u < x) := by
      intro u
      simp only [Function.comp_apply, List.length_map]
      rw [← List.countP_eq_length_filter, Graph.nbrs, List.countP_map]
      apply List.countP_congr
      intro e he
      have hne : e.1 ≠ u := by
        intro hc
        exact hloop u (List.mem_map.mpr ⟨e, he, hc⟩)
      simp only [Function.comp_apply, decide_eq_true_eq]
      omega
    rw [List.map_congr_left fun u _ => hblock u, sum_map_range_eq]
  have hdeg : ∀ u, g.degree u =
      (g.nbrs u).countP (fun x => decide (u < x)) +
      (g.nbrs u).countP (fun x => decide (x < u)) := by
    intro u
    rw [degree_eq_nbrs_length, List.length_eq_countP_add_countP (fun x => decide (u < x))]
    congr 1
    apply List.countP_congr
    intro x hx
    have hne : x ≠ u := fun hc => hloop u (hc ▸ hx)
    simp only [decide_eq_true_eq]
    omega
  have hsum2 : ∑ u in Finset.range g.n, (g.nbrs u).countP (fun x => decide (x < u)) =
      ∑ u in Finset.range g.n, (g.nbrs u).countP (fun x => decide (u < x)) := by
    rw [Finset.sum_congr rfl fun u _ =>
      countP_eq_sum_count g.n (g.nbrs u) (hrange u) (fun x => decide (x < u)),
      Finset.sum_comm,
      Finset.sum_congr rfl fun u _ =>
      countP_eq_sum_count g.n (g.nbrs u) (hrange u) (fun x => decide (u < x))]
    apply Finset.sum_congr rfl
    intro w _
    apply Finset.sum_congr rfl
    intro i _
    by_cases h : w < i
    · rw [if_pos (decide_eq_true h), if_pos (decide_eq_true h),
        nbrs_count_symm g hsym hnd i w]
    · rw [if_neg (fun hc => h (of_decide_eq_true hc)),
        if_neg (fun hc => h (of_decide_eq_true hc))]
  rw [hlen, Finset.sum_congr rfl fun u _ => hdeg u, Finset.sum_add_distrib, hsum2]
  omega

/-- C3: for every well-formed simple undirected graph (no self-loops, no
parallel edges) and every terminating run of the randomizer's loop — any
number of requested swaps, driven by any finite stream of engine draws —
every vertex's degree after the run equals its degree before, the total
number of edges is unchanged, and the resulting graph again contains no
self-loop and no duplicate edge. -/
theorem c3_randomize_invariants [Inhabited β] [DecidableEq β] (g : Graph α β γ)
    (hg : g.WF) (hs : g.Simple) (count : Nat) (l : List Attempt)
    (st2 : RState α β γ) (h : randomizeRun count (initState g) l = some st2) :
    (∀ v, st2.g.degree v = g.degree v) ∧
    (get_edges st2.g).length = (get_edges g).length ∧
    st2.g.Simple := by
  have hinv : RInv g st2 := randomizeRun_inv g count l (initState g) st2 (rinv_init g hg hs) h
  have hinv0 : RInv g (initState g) := rinv_init g hg hs
  refine ⟨hinv.deg, ?_, fun u _ => hinv.loopfree u, fun u _ => hinv.nodup u⟩
  have h1 := handshake st2.g hinv.range hinv.symm hinv.loopfree hinv.nodup
  have h0 := handshake g hinv0.range hinv0.symm hinv0.loopfree hinv0.nodup
  have hsum : ∑ u in Finset.range st2.g.n, st2.g.degree u =
      ∑ u in Finset.range g.n, g.degree u := by
    rw [hinv.hn]
    exact Finset.sum_congr rfl fun u _ => hinv.deg u
  omega

/-- The state the randomizer loop reaches from cyc4 after the single accepted
swap attempt drawing edges 0 and 3 with orientations (true, false). -/
def rstateAfterCyc4Swap : RState Unit Unit Unit :=
  ⟨⟨[(), (), (), ()],
    [[(3, ()), (2, ())], [(2, ()), (3, ())], [(1, ()), (0, ())], [(0, ()), (1, ())]],
    ()⟩, [(0, 2), (0, 3), (1, 2), (3, 1)], 1⟩

theorem c3_randomize_invariants_witness :
    (∀ v, rstateAfterCyc4Swap.g.degree v = cyc4.degree v) ∧
    (get_edges rstateAfterCyc4Swap.g).length = (get_edges cyc4).length ∧
    rstateAfterCyc4Swap.g.Simple :=
  c3_randomize_invariants cyc4 (by decide) (by decide) 1 [⟨0, 3, true, false⟩]
    rstateAfterCyc4Swap (by decide)
